import Mathlib

/-!
Verification of the symbol-dependency resolution engine and code-assembly
pipeline of `pysph/sph/equation.py`.

The Python source is shallowly embedded: Python dicts become association
lists (`List (κ × α)`), Python sets become lists considered up to
membership (with the one place where an iteration order could leak into the
output — the input of `sort_precomputed` — proved order-invariant), the
`while` loops of `sort_precomputed` and `Group._setup_precomputed` become
fuel-bounded recursions where exhausted fuel (`none`) models
non-termination, and raised exceptions (`KeyError` from a dict lookup,
`AttributeError` from a missing `loop` method) also become `none`.

Python object references matter for one claim (the group context holds the
library's mutable default lists by reference, not by copy); values stored
in contexts are therefore embedded as `PyVal`, where a list default is a
reference (`PyVal.ref`) into an explicit heap of vectors.  Numeric
literals in the source are floats on which the generator never computes,
so they are embedded as integers.

The free-symbol extractor `get_symbols` (pysph.base.ast_utils) is an
external collaborator that is not part of this repository's source here;
the `symbols` field of each library code block is modelled from the spec
(the set of identifier names referenced by the fragment's text).
-/

namespace PysphEq

/-! ### Association lists (Python dict lookups) -/

/-- Lookup in an association list; `some v` for the first matching key,
`none` models a `KeyError` when the caller does not guard the access. -/
def alookup {κ : Type} {α : Type} [DecidableEq κ] : List (κ × α) → κ → Option α
  | [], _ => none
  | (k, v) :: rest, key => if key = k then some v else alookup rest key

/-- `dict.get(k, d)`-style lookup with a default. -/
def alookupD {κ α : Type} [DecidableEq κ] (l : List (κ × α)) (k : κ) (d : α) : α :=
  (alookup l k).getD d

/-! ### Fallible map over a list

`omapM f l` applies `f` to every element, failing as soon as `f` does —
the shape of every loop in the source that can raise mid-iteration. -/

def omapM {α β : Type} (f : α → Option β) : List α → Option (List β)
  | [] => some []
  | a :: l =>
    match f a with
    | none => none
    | some b =>
      match omapM f l with
      | none => none
      | some bs => some (b :: bs)

/-! ### Lexicographic string order (Python `sorted` on identifier strings)

Python sorts strings by comparing code points left to right.  Lean's
built-in `String.lt` does not reduce in the kernel, so the order is
defined here on the character lists. -/

def charListLe : List Char → List Char → Bool
  | [], _ => true
  | _ :: _, [] => false
  | a :: as, b :: bs => if a < b then true else if a = b then charListLe as bs else false

/-- Lexicographic order on strings, as used by Python `sorted`. -/
def strLe (a b : String) : Prop := charListLe a.data b.data = true

instance : DecidableRel strLe := fun a b =>
  inferInstanceAs (Decidable (charListLe a.data b.data = true))

instance : IsTotal String strLe := by
  constructor
  intro a b
  show charListLe a.data b.data = true ∨ charListLe b.data a.data = true
  generalize a.data = l₁
  generalize b.data = l₂
  induction l₁ generalizing l₂ with
  | nil => left; rfl
  | cons x xs ih =>
    cases l₂ with
    | nil => right; rfl
    | cons y ys =>
      rcases lt_trichotomy x y with h | h | h
      · left; simp [charListLe, h]
      · subst h
        rcases ih ys with h2 | h2
        · left; simp [charListLe, h2]
        · right; simp [charListLe, h2]
      · right; simp [charListLe, h]

instance : IsAntisymm String strLe := by
  constructor
  intro a b h1 h2
  apply String.ext
  revert h1 h2
  show charListLe a.data b.data = true → charListLe b.data a.data = true → a.data = b.data
  generalize a.data = l₁
  generalize b.data = l₂
  intro h1 h2
  induction l₁ generalizing l₂ with
  | nil =>
    cases l₂ with
    | nil => rfl
    | cons y ys => simp [charListLe] at h2
  | cons x xs ih =>
    cases l₂ with
    | nil => simp [charListLe] at h1
    | cons y ys =>
      rcases lt_trichotomy x y with h | h | h
      · simp [charListLe, h, not_lt_of_gt h, ne_of_gt h] at h2
      · subst h
        simp [charListLe] at h1 h2
        rw [ih ys h1 h2]
      · simp [charListLe, h, not_lt_of_gt h, ne_of_gt h] at h1

instance : IsTrans String strLe := by
  constructor
  intro a b c h1 h2
  show charListLe a.data c.data = true
  revert h1 h2
  show charListLe a.data b.data = true → charListLe b.data c.data = true → _
  generalize a.data = l₁
  generalize b.data = l₂
  generalize c.data = l₃
  intro h1 h2
  induction l₁ generalizing l₂ l₃ with
  | nil => rfl
  | cons x xs ih =>
    cases l₂ with
    | nil => simp [charListLe] at h1
    | cons y ys =>
      cases l₃ with
      | nil => simp [charListLe] at h2
      | cons z zs =>
        by_cases hxy : x < y
        · by_cases hyz : y < z
          · simp [charListLe, lt_trans hxy hyz]
          · by_cases hyz' : y = z
            · subst hyz'; simp [charListLe, hxy]
            · simp [charListLe, hyz, hyz'] at h2
        · by_cases hxy' : x = y
          · subst hxy'
            simp [charListLe] at h1
            by_cases hyz : x < z
            · simp [charListLe, hyz]
            · by_cases hyz' : x = z
              · subst hyz'
                simp [charListLe] at h2 ⊢
                exact ih ys zs h1 h2
              · simp [charListLe, hyz, hyz'] at h2
          · simp [charListLe, hxy, hxy'] at h1

/-! ### Values and code blocks

`PyVal` embeds the values stored in contexts.  Python floats are never
computed on by the generator, so numeric defaults are embedded as `Int`.
A Python list default (a mutable object) is a reference into a heap of
vectors, so that reference sharing between contexts is observable. -/

inductive PyVal where
  | num (v : Int)
  | ref (addr : Nat)
  deriving DecidableEq, Repr

/-- A heap of vector objects; `PyVal.ref a` points at entry `a`. -/
def Heap : Type := List (List Int)

/-- Embeds `BasicCodeBlock` (equation.py lines 73-154): the (dedented) code
text, the identifier names the code references (`self.symbols`, produced by
the external `get_symbols` collaborator and modelled from the spec as the
set of identifiers referenced by the text), and the default value the
block's context holds for the block's own symbol (`self.context[name]`). -/
structure BasicCodeBlock where
  code : String
  symbols : List String
  ctxDefault : PyVal
  deriving DecidableEq, Repr

/-! ### The precomputed-symbol library (`precomputed_symbols`, lines 160-218)

Vector defaults `[0.0, 0.0, 0.0]` are distinct mutable list objects; they
live at heap addresses 0-4 (XIJ, VIJ, DWIJ, DWI, DWJ in creation order). -/

def hijBlock : BasicCodeBlock :=
  { code := "HIJ = 0.5*(d_h[d_idx] + s_h[s_idx])"
    symbols := ["HIJ", "d_h", "d_idx", "s_h", "s_idx"]
    ctxDefault := PyVal.num 0 }

def rhoijBlock : BasicCodeBlock :=
  { code := "RHOIJ = 0.5*(d_rho[d_idx] + s_rho[s_idx])"
    symbols := ["RHOIJ", "d_rho", "d_idx", "s_rho", "s_idx"]
    ctxDefault := PyVal.num 0 }

def rhoij1Block : BasicCodeBlock :=
  { code := "RHOIJ1 = 1.0/RHOIJ"
    symbols := ["RHOIJ1", "RHOIJ"]
    ctxDefault := PyVal.num 0 }

def xijBlock : BasicCodeBlock :=
  { code := "\nXIJ[0] = d_x[d_idx] - s_x[s_idx]\nXIJ[1] = d_y[d_idx] - s_y[s_idx]\nXIJ[2] = d_z[d_idx] - s_z[s_idx]\n"
    symbols := ["XIJ", "d_x", "d_idx", "s_x", "s_idx", "d_y", "s_y", "d_z", "s_z"]
    ctxDefault := PyVal.ref 0 }

def vijBlock : BasicCodeBlock :=
  { code := "\nVIJ[0] = d_u[d_idx] - s_u[s_idx]\nVIJ[1] = d_v[d_idx] - s_v[s_idx]\nVIJ[2] = d_w[d_idx] - s_w[s_idx]\n"
    symbols := ["VIJ", "d_u", "d_idx", "s_u", "s_idx", "d_v", "s_v", "d_w", "s_w"]
    ctxDefault := PyVal.ref 1 }

def r2ijBlock : BasicCodeBlock :=
  { code := "\nR2IJ = XIJ[0]*XIJ[0] + XIJ[1]*XIJ[1] + XIJ[2]*XIJ[2]\n"
    symbols := ["R2IJ", "XIJ"]
    ctxDefault := PyVal.num 0 }

def rijBlock : BasicCodeBlock :=
  { code := "\nRIJ = sqrt(R2IJ)\n"
    symbols := ["RIJ", "sqrt", "R2IJ"]
    ctxDefault := PyVal.num 0 }

def wijBlock : BasicCodeBlock :=
  { code := "WIJ = KERNEL(XIJ, RIJ, HIJ)"
    symbols := ["WIJ", "KERNEL", "XIJ", "RIJ", "HIJ"]
    ctxDefault := PyVal.num 0 }

def wiBlock : BasicCodeBlock :=
  { code := "WI = KERNEL(XIJ, RIJ, d_h[d_idx])"
    symbols := ["WI", "KERNEL", "XIJ", "RIJ", "d_h", "d_idx"]
    ctxDefault := PyVal.num 0 }

def wjBlock : BasicCodeBlock :=
  { code := "WJ = KERNEL(XIJ, RIJ, s_h[s_idx])"
    symbols := ["WJ", "KERNEL", "XIJ", "RIJ", "s_h", "s_idx"]
    ctxDefault := PyVal.num 0 }

def dwijBlock : BasicCodeBlock :=
  { code := "GRADIENT(XIJ, RIJ, HIJ, DWIJ)"
    symbols := ["GRADIENT", "XIJ", "RIJ", "HIJ", "DWIJ"]
    ctxDefault := PyVal.ref 2 }

def dwiBlock : BasicCodeBlock :=
  { code := "GRADIENT(XIJ, RIJ, d_h[d_idx], DWI)"
    symbols := ["GRADIENT", "XIJ", "RIJ", "d_h", "d_idx", "DWI"]
    ctxDefault := PyVal.ref 3 }

def dwjBlock : BasicCodeBlock :=
  { code := "GRADIENT(XIJ, RIJ, s_h[s_idx], DWJ)"
    symbols := ["GRADIENT", "XIJ", "RIJ", "s_h", "s_idx", "DWJ"]
    ctxDefault := PyVal.ref 4 }

/-- The process-wide registry `Group.pre_comp = precomputed_symbols()`. -/
def preComp : List (String × BasicCodeBlock) :=
  [("HIJ", hijBlock), ("RHOIJ", rhoijBlock), ("RHOIJ1", rhoij1Block),
   ("XIJ", xijBlock), ("VIJ", vijBlock), ("R2IJ", r2ijBlock),
   ("RIJ", rijBlock), ("WIJ", wijBlock), ("WI", wiBlock), ("WJ", wjBlock),
   ("DWIJ", dwijBlock), ("DWI", dwiBlock), ("DWJ", dwjBlock)]

/-- The initial heap: the five vector defaults, each `[0.0, 0.0, 0.0]`. -/
def heap0 : Heap := [[0, 0, 0], [0, 0, 0], [0, 0, 0], [0, 0, 0], [0, 0, 0]]

def libKeys (lib : List (String × BasicCodeBlock)) : List String := lib.map Prod.fst

/-! ### `sort_precomputed` (lines 221-264)

The input is the `precomputed` dict (an association list here).  Python
iterates its keys in an unspecified hash order; the embedding takes the
association list's order and proves the final result invariant under
permuting it.  The `while` loop gets fuel `n + 1` for `n` input names: a
terminating run resolves at least one name per pass, and a pass that
resolves nothing repeats forever, which exhausted fuel (`none`) models. -/

/-- Line 234: `depends[pre] = [x for x in cb.symbols if x in pre_comp and x != pre]`.
Note the membership test is against the whole library `pre_comp`, not
against the keys of the `precomputed` argument. -/
def dependsOf (lib : List (String × BasicCodeBlock)) (name : String)
    (cb : BasicCodeBlock) : List String :=
  cb.symbols.filter (fun x => (alookup lib x).isSome && x != name)

/-- Modelled from the spec: the dependency notion the spec's §4.3 describes
("its CodeBlock's symbol set intersected with `S`, excluding itself"),
stated for comparison with `dependsOf`, which is what the code computes. -/
def specDependsOf (S : List (String × BasicCodeBlock)) (name : String)
    (cb : BasicCodeBlock) : List String :=
  cb.symbols.filter (fun x => (alookup S x).isSome && x != name)

/-- `max` of a list of weights (all Python ints here are naturals). -/
def natMaxList (l : List Nat) : Nat := l.foldl Nat.max 0

/-- `weights[x]`: `some (some w)` when resolved, `some none` when still
`None`, and `none` for the `KeyError` raised when `x` is not a key of the
`weights` dict (whose keys are exactly the input names). -/
def weightLookup (asg : List (String × Nat)) (allNames : List String)
    (x : String) : Option (Option Nat) :=
  match alookup asg x with
  | some w => some (some w)
  | none => if x ∈ allNames then some none else none

/-- `levels[w].append(n)` on the `defaultdict(list)`. -/
def levelAdd : List (Nat × List String) → Nat → String → List (Nat × List String)
  | [], w, n => [(w, [n])]
  | (k, ns) :: rest, w, n =>
    if w = k then (k, ns ++ [n]) :: rest else (k, ns) :: levelAdd rest w n

/-- `[weights[x] for x in depends[name]]`, with `none` for a `KeyError`. -/
def depWeights (deps : String → List String) (asg : List (String × Nat))
    (allNames : List String) (n : String) : Option (List (Option Nat)) :=
  omapM (weightLookup asg allNames) (deps n)

/-- One `for name in pre_comp_names[:]` pass of the sorting loop
(lines 245-257).  The first list is the copy being iterated; `rem` is the
live `pre_comp_names`, `asg` the resolved entries of `weights`, `lv` the
`levels` dict. -/
def onePass (deps : String → List String) (allNames : List String) :
    List String → List String → List (String × Nat) → List (Nat × List String) →
    Option (List String × List (String × Nat) × List (Nat × List String))
  | [], rem, asg, lv => some (rem, asg, lv)
  | n :: todo, rem, asg, lv =>
    match depWeights deps asg allNames n with
    | none => none
    | some wts =>
      if wts = [] then
        onePass deps allNames todo (rem.erase n) (asg ++ [(n, 0)]) (levelAdd lv 0 n)
      else if none ∈ wts then
        onePass deps allNames todo rem asg lv
      else
        let w := natMaxList wts.reduceOption + 1
        onePass deps allNames todo (rem.erase n) (asg ++ [(n, w)]) (levelAdd lv w n)

/-- The `while pre_comp_names:` loop (lines 244-257). -/
def sortLoop (deps : String → List String) (allNames : List String) :
    Nat → List String → List (String × Nat) → List (Nat × List String) →
    Option (List (String × Nat) × List (Nat × List String))
  | _, [], asg, lv => some (asg, lv)
  | 0, _ :: _, _, _ => none
  | fuel + 1, rem@(_ :: _), asg, lv =>
    match onePass deps allNames rem rem asg lv with
    | none => none
    | some (rem', asg', lv') => sortLoop deps allNames fuel rem' asg' lv'

/-- The dependency function line 233-234 precomputes for the input dict. -/
def sortDeps (lib precomputed : List (String × BasicCodeBlock)) (n : String) :
    List String :=
  match alookup precomputed n with
  | some cb => dependsOf lib n cb
  | none => []

/-- Runs the weight-assignment loop of `sort_precomputed`, exposing the
final `weights` and `levels`. -/
def sortDetail (lib precomputed : List (String × BasicCodeBlock)) :
    Option (List (String × Nat) × List (Nat × List String)) :=
  let names := precomputed.map Prod.fst
  sortLoop (sortDeps lib precomputed) names (names.length + 1) names [] []

/-- Python `sorted` on the names of one weight level. -/
def sortedLevel (ns : List String) : List String := ns.insertionSort strLe

/-- Lines 259-262: names grouped by ascending weight, each level sorted. -/
def orderedOf (lv : List (Nat × List String)) : List String :=
  (List.range lv.length).flatMap (fun i => sortedLevel ((alookup lv i).getD []))

/-- `sort_precomputed` (lines 221-264).  The result values are looked up in
`pre_comp` (line 262), so an input name missing from the library is a
`KeyError` (`none`). -/
def sort_precomputed (lib precomputed : List (String × BasicCodeBlock)) :
    Option (List (String × BasicCodeBlock)) :=
  match sortDetail lib precomputed with
  | none => none
  | some (_, lv) =>
    omapM (fun n => (alookup lib n).map (fun cb => (n, cb))) (orderedOf lv)

/-- The weight `sort_precomputed` assigns to a name, for inspection. -/
def weightOf (lib precomputed : List (String × BasicCodeBlock)) (n : String) :
    Option Nat :=
  match sortDetail lib precomputed with
  | none => none
  | some (asg, _) => alookup asg n

/-! ### Equations (`Equation`, lines 270-282)

An equation's phase behaviours are the `initialize`, `loop` and
`post_loop` methods its class may define; what the generator reads from a
behaviour is only `inspect.getargspec(meth).args`, so a behaviour is
embedded as its declared parameter-name list (including the `self` that
`getargspec` reports for a method), `none` when the class does not define
that method. -/

inductive Phase where
  | init
  | loop
  | post_loop
  deriving DecidableEq

/-- The `kind` string the phase is named by in the source. -/
def phaseName : Phase → String
  | Phase.init => "initialize"
  | Phase.loop => "loop"
  | Phase.post_loop => "post_loop"

structure Equation where
  /-- The equation's class name (`self.__class__.__name__`). -/
  cls : String
  dest : String
  sources : Option (List String)
  no_source : Bool
  /-- `self.name`: the class name unless a `name` argument was given. -/
  name : String
  /-- `self.var_name`, `''` until `get_equation_wrappers` assigns it. -/
  var_name : String
  /-- Parameters of the class's `initialize` method, if defined. -/
  initArgs : Option (List String)
  /-- Parameters of the class's `loop` method, if defined. -/
  loopArgs : Option (List String)
  /-- Parameters of the class's `post_loop` method, if defined. -/
  postLoopArgs : Option (List String)
  deriving DecidableEq

/-- `Equation.__init__(dest, sources=None, name=None)` for a class named
`cls` whose phase methods declare the given parameter lists. -/
def Equation.make (cls dest : String) (sources : Option (List String))
    (name : Option String) (initArgs loopArgs postLoopArgs : Option (List String)) :
    Equation :=
  let sources' := match sources with
    | some l => if l.length > 0 then some l else none
    | none => none
  { cls := cls, dest := dest, sources := sources'
    no_source := sources'.isNone
    name := name.getD cls
    var_name := ""
    initArgs := initArgs, loopArgs := loopArgs, postLoopArgs := postLoopArgs }

def Equation.phaseArgs (e : Equation) : Phase → Option (List String)
  | Phase.init => e.initArgs
  | Phase.loop => e.loopArgs
  | Phase.post_loop => e.postLoopArgs

/-! ### Group closure computation (`Group._setup_precomputed`, lines 369-404)

Python set values are embedded as lists read up to membership; where a set
is materialised (the initial `precomputed` dict, each round's `all_new`)
the embedding lists its elements in library order, a canonical choice for
the unspecified hash order.  `sort_precomputed` is proved invariant under
permuting its input, so the choice is immaterial for every output. -/

/-- One pass of the closure loop (lines 385-397): the symbols referenced
by the frontier's code blocks that are library keys not yet included.
`pre[sym]` raises a `KeyError` (`none`) when `sym` is not a library key;
group resolution only ever passes library keys. -/
def closurePass (lib : List (String × BasicCodeBlock))
    (precomputed frontier : List String) : Option (List String) :=
  match omapM (fun s => alookup lib s) frontier with
  | none => none
  | some blocks =>
    let referenced := blocks.flatMap (fun cb => cb.symbols)
    some ((libKeys lib).filter
      (fun s => decide (s ∈ referenced) && !(decide (s ∈ precomputed))))

/-- The `while not done:` fixed-point loop (lines 383-397).  The loop adds
at least one library key per round, so fuel `lib.length + 1` is enough for
every run the source completes. -/
def closureLoop (lib : List (String × BasicCodeBlock)) :
    Nat → List String → List String → Option (List String)
  | 0, _, _ => none
  | fuel + 1, precomputed, frontier =>
    match closurePass lib precomputed frontier with
    | none => none
    | some allNew =>
      if allNew = [] then some precomputed
      else closureLoop lib fuel (precomputed ++ allNew) allNew

/-- Lines 373-377: the union of every equation's `loop` parameters with
`self` discarded.  Accessing `equation.loop` on an equation whose class
defines no `loop` raises an `AttributeError` (`none`). -/
def allLoopArgs (eqs : List Equation) : Option (List String) :=
  match omapM (fun e => e.loopArgs) eqs with
  | none => none
  | some argLists => some ((argLists.flatMap id).filter (fun a => a != "self"))

/-- `Group._setup_precomputed` (lines 369-399): collect the loop-phase
parameter names, keep the library keys, close under library-internal
dependencies, and sort.  The result is `self.precomputed`. -/
def setupPrecomputed (lib : List (String × BasicCodeBlock)) (eqs : List Equation) :
    Option (List (String × BasicCodeBlock)) :=
  match allLoopArgs eqs with
  | none => none
  | some args =>
    let initial := (libKeys lib).filter (fun s => decide (s ∈ args))
    match closureLoop lib (lib.length + 1) initial initial with
    | none => none
    | some closed =>
      match omapM (fun n => (alookup lib n).map (fun cb => (n, cb))) closed with
      | none => none
      | some assoc => sort_precomputed lib assoc

/-- Lines 401-404: `context[p] = cb.context[p]` for every resolved entry.
The Python assignment copies the reference, not the object, which is why
the stored value is the block's own `ctxDefault` unchanged. -/
def groupContext (resolved : List (String × BasicCodeBlock)) :
    List (String × PyVal) :=
  resolved.map (fun pc => (pc.1, pc.2.ctxDefault))

/-! ### Phase code generation (`Group._get_code`, lines 336-359) -/

/-- The precomputed fragments prepended for a phase: each resolved block's
code stripped of surrounding whitespace, a blank entry appended when any
were emitted — and only for the `loop` phase (lines 340-345). -/
def preLines (resolved : List (String × BasicCodeBlock)) (k : Phase) :
    List String :=
  if k = Phase.loop then
    let pre := resolved.map (fun pc => pc.2.code.trim)
    if pre.length > 0 then pre ++ [""] else pre
  else []

/-- Lines 346-358: one `self.<var_name>.<kind>(<args>)` dispatch stub per
equation defining the phase (with the first `'self'` removed from the
argument list), a blank entry appended when any were emitted. -/
def stubLines (eqs : List Equation) (k : Phase) : List String :=
  let code := eqs.filterMap (fun eq =>
    (eq.phaseArgs k).map (fun args =>
      "self." ++ eq.var_name ++ "." ++ phaseName k ++ "(" ++
        String.intercalate ", " (args.erase "self") ++ ")"))
  if code.length > 0 then code ++ [""] else code

/-- `Group._get_code` (lines 336-359). -/
def getCode (resolved : List (String × BasicCodeBlock)) (eqs : List Equation)
    (k : Phase) : String :=
  String.intercalate "\n" (preLines resolved k ++ stubLines eqs k)

/-- `Group._has_code` (lines 330-334): does any equation define the phase. -/
def hasCode (eqs : List Equation) (k : Phase) : Bool :=
  eqs.any (fun e => (e.phaseArgs k).isSome)

/-! ### Instance naming (`camel_to_underscore` line 24-31 and
`Group.get_equation_wrappers` lines 492-506)

`camel_to_underscore` applies two regex substitutions and lowercases.
Each substitution is a left-to-right scan replacing non-overlapping
matches; both are implemented on the character list with a fuel argument
equal to the list length so they reduce in the kernel. -/

def isUpperAZ (c : Char) : Bool := 'A' ≤ c && c ≤ 'Z'

def isLowerAZ (c : Char) : Bool := 'a' ≤ c && c ≤ 'z'

def isLowerDigit (c : Char) : Bool := isLowerAZ c || ('0' ≤ c && c ≤ '9')

/-- `re.sub(r'(.)([A-Z][a-z]+)', r'\1_\2', s)`: insert `_` between any
character and an upper-case letter followed by a greedy run of at least
one lower-case letter; scanning resumes after the matched run. -/
def sub1Fuel : Nat → List Char → List Char
  | 0, l => l
  | _ + 1, [] => []
  | fuel + 1, c1 :: rest =>
    match rest with
    | c2 :: c3 :: rest' =>
      if isUpperAZ c2 && isLowerAZ c3 then
        let run := (c3 :: rest').takeWhile isLowerAZ
        let after := (c3 :: rest').dropWhile isLowerAZ
        c1 :: '_' :: c2 :: (run ++ sub1Fuel fuel after)
      else c1 :: sub1Fuel fuel (c2 :: c3 :: rest')
    | _ => c1 :: rest

/-- `re.sub('([a-z0-9])([A-Z])', r'\1_\2', s)`: insert `_` between a
lower-case letter or digit and an upper-case letter; scanning resumes
after the upper-case letter. -/
def sub2 : List Char → List Char
  | [] => []
  | [c] => [c]
  | c1 :: c2 :: rest =>
    if isLowerDigit c1 && isUpperAZ c2 then c1 :: '_' :: c2 :: sub2 rest
    else c1 :: sub2 (c2 :: rest)

/-- `camel_to_underscore` (lines 24-31). -/
def camel_to_underscore (name : String) : String :=
  String.mk ((sub2 (sub1Fuel name.data.length name.data)).map Char.toLower)

/-- Decimal rendering of a counter, as Python `'%d' % n` produces. -/
def decDigits : Nat → Nat → List Char
  | 0, _ => []
  | fuel + 1, n =>
    if n = 0 then [] else decDigits fuel (n / 10) ++ [Char.ofNat (48 + n % 10)]

def natStr (n : Nat) : String :=
  if n = 0 then "0" else String.mk (decDigits (n + 1) n)

/-- The naming loop of `get_equation_wrappers` (lines 493-499): walk the
equations, give each `var_name = camel_to_underscore(name) + str(n)` for
`n` the per-class counter, and bump the counter.  (The delegation to the
external `CythonGenerator` emitting one wrapper per distinct class is
outside this model.) -/
def assignVarNamesAux : List Equation → List (String × Nat) → List Equation
  | [], _ => []
  | e :: rest, counters =>
    let n := alookupD counters e.cls 0
    let e' := { e with var_name := camel_to_underscore e.name ++ natStr n }
    e' :: assignVarNamesAux rest ((e.cls, n + 1) :: counters)

def assignVarNames (eqs : List Equation) : List Equation :=
  assignVarNamesAux eqs []

/-- The number of equations before position `i` whose class is `c` — the
per-class counter value the `i`-th equation sees. -/
def countClsBefore (eqs : List Equation) (i : Nat) (c : String) : Nat :=
  ((eqs.take i).filter (fun e => e.cls == c)).length

/-! ### Heap operations (for the reference-sharing behaviour of contexts) -/

/-- Write `v` into component `i` of the vector object at address `a`:
the effect of Python `ctx[name][i] = v` when `ctx[name]` is `ref a`. -/
def heapWrite (h : Heap) (a i : Nat) (v : Int) : Heap :=
  List.set h a (((List.get? h a).getD []).set i v)

/-- Read the vector a context binds `name` to, through the heap. -/
def readVec (h : Heap) (ctx : List (String × PyVal)) (name : String) :
    Option (List Int) :=
  match alookup ctx name with
  | some (PyVal.ref a) => List.get? h a
  | _ => none

/-- In-place mutation `ctx[name][i] = v` through a context binding:
returns the updated heap (the context itself is unchanged — Python lists
mutate under the binding). -/
def ctxWriteIdx (h : Heap) (ctx : List (String × PyVal)) (name : String)
    (i : Nat) (v : Int) : Heap :=
  match alookup ctx name with
  | some (PyVal.ref a) => heapWrite h a i v
  | _ => h

/-! ### Specification vocabulary used by the theorems -/

/-- The position of the first occurrence of `x` in `l`. -/
def firstPos : List String → String → Nat
  | [], _ => 0
  | a :: l, x => if a = x then 0 else firstPos l x + 1

/-- The number a decimal digit string denotes (left fold base 10). -/
def parseNum (l : List Char) : Nat :=
  l.foldl (fun a c => a * 10 + (c.toNat - 48)) 0

/-- The weight equation lines 247-254 enforce for a resolved name: `0`
with no dependencies, otherwise one more than the largest dependency
weight. -/
def WFormula (deps : String → List String) (asg : List (String × Nat))
    (n : String) (w : Nat) : Prop :=
  (deps n = [] ∧ w = 0) ∨
    (deps n ≠ [] ∧ ∃ ws, omapM (alookup asg) (deps n) = some ws ∧
      w = natMaxList ws + 1)

/-- The invariant of the weight-assignment loop of `sort_precomputed`:
`rem` and the assigned keys partition the input names; `lv` groups the
assigned names by their weight, with pairwise-distinct, downward-closed,
nonempty levels; every assigned name's dependencies are assigned strictly
smaller weights that satisfy the weight equation. -/
structure SortInv (deps : String → List String) (allNames : List String)
    (rem : List String) (asg : List (String × Nat))
    (lv : List (Nat × List String)) : Prop where
  perm : (rem ++ asg.map Prod.fst).Perm allNames
  flat : (lv.flatMap Prod.snd).Perm (asg.map Prod.fst)
  inLv : ∀ w ns, alookup lv w = some ns → ∀ n ∈ ns, alookup asg n = some w
  keysNodup : (lv.map Prod.fst).Nodup
  down : ∀ p ∈ lv, ∀ w' < p.1, ∃ q ∈ lv, q.1 = w'
  blocksNE : ∀ p ∈ lv, p.2 ≠ []
  depsLt : ∀ n w, alookup asg n = some w → ∀ d ∈ deps n,
    ∃ wd, alookup asg d = some wd ∧ wd < w
  formula : ∀ n w, alookup asg n = some w → WFormula deps asg n w

/-- Dependency closedness of a name set `P` with respect to the library:
every library symbol referenced by the block of a member is a member. -/
def ClosedIn (lib : List (String × BasicCodeBlock)) (P : List String)
    (x : String) : Prop :=
  ∀ cb, alookup lib x = some cb → ∀ s ∈ cb.symbols,
    (alookup lib s).isSome → s ∈ P

/-! ### Concrete inputs used by witnesses and counterexamples -/

/-- An equation whose per-pair behaviour references exactly `RIJ` among
library names (the spec's `RIJ` example). -/
def eqRIJ : Equation :=
  Equation.make "TestEq" "fluid" none none
    none (some ["self", "d_idx", "s_idx", "d_p", "s_p", "RIJ"]) none

/-- The resolved order group resolution produces for `eqRIJ`. -/
def resolvedRIJ : List (String × BasicCodeBlock) :=
  [("XIJ", xijBlock), ("R2IJ", r2ijBlock), ("RIJ", rijBlock)]

/-- The dependency-closed sorter input `{XIJ, R2IJ, RIJ}` and a permuted
copy of it (two hash orders of the same dict). -/
def closedS : List (String × BasicCodeBlock) :=
  [("RIJ", rijBlock), ("XIJ", xijBlock), ("R2IJ", r2ijBlock)]

def closedSRev : List (String × BasicCodeBlock) := closedS.reverse

/-- The non-closed sorter input `{RIJ}` (C3's counterexample). -/
def soloRIJ : List (String × BasicCodeBlock) := [("RIJ", rijBlock)]

/-- An instance of a class `C` whose `loop` takes no data, with an
explicit display name `nm` (the `name` constructor argument). -/
def mkNamedC (nm : String) : Equation :=
  Equation.make "C" "fluid" none (some nm) none (some ["self"]) none

/-- Eleven instances of one class: display names `X1, X, X, ...`; the
first gets counter 0 (`x1` + `0`) and the last counter 10 (`x` + `10`). -/
def elevenC : List Equation := mkNamedC "X1" :: List.replicate 10 (mkNamedC "X")

/-- Two default-named instances of a class `FooEquation`. -/
def fooEq : Equation :=
  Equation.make "FooEquation" "fluid" none none none (some ["self", "d_rho"]) none

def twoFoo : List Equation := [fooEq, fooEq]

/-- An equation whose per-pair behaviour references `XIJ` (whose default
is the mutable vector at heap address 0). -/
def eqXIJ : Equation :=
  Equation.make "EqX" "fluid" none none none (some ["self", "XIJ"]) none

/-- An equation referencing `RHOIJ` plus the unknown name `FOO`. -/
def eqRhoFoo : Equation :=
  Equation.make "EqRho" "fluid" none none
    none (some ["self", "d_idx", "s_idx", "d_rho", "s_rho", "RHOIJ", "FOO"]) none

def eqRhoArgs : List String := ["self", "d_idx", "s_idx", "d_rho", "s_rho", "RHOIJ"]

def eqRho : Equation :=
  Equation.make "EqRho" "fluid" none none none (some eqRhoArgs) none

/-- An equation defining only `initialize` and `post_loop`, no `loop`. -/
def eqNoLoop : Equation :=
  Equation.make "NoLoopEq" "fluid" none none
    (some ["self", "d_idx", "d_rho"]) none (some ["self", "d_idx", "d_rho"])

/-! ## Theorems

### Association-list and fallible-map lemmas -/

theorem alookup_append {κ α : Type} [DecidableEq κ] (l₁ l₂ : List (κ × α)) (k : κ) :
    alookup (l₁ ++ l₂) k =
      match alookup l₁ k with
      | some v => some v
      | none => alookup l₂ k := by
  induction l₁ with
  | nil => simp [alookup]
  | cons p rest ih =>
    obtain ⟨k', v'⟩ := p
    by_cases h : k = k' <;> simp [alookup, h, ih]

theorem alookup_append_of_some {κ α : Type} [DecidableEq κ] {l₁ : List (κ × α)}
    {k : κ} {v : α} (l₂ : List (κ × α)) (h : alookup l₁ k = some v) :
    alookup (l₁ ++ l₂) k = some v := by
  rw [alookup_append, h]

theorem alookup_append_of_none {κ α : Type} [DecidableEq κ] {l₁ : List (κ × α)}
    {k : κ} (l₂ : List (κ × α)) (h : alookup l₁ k = none) :
    alookup (l₁ ++ l₂) k = alookup l₂ k := by
  rw [alookup_append, h]

theorem alookup_eq_some_mem {κ α : Type} [DecidableEq κ] {l : List (κ × α)}
    {k : κ} {v : α} (h : alookup l k = some v) : (k, v) ∈ l := by
  induction l with
  | nil => simp [alookup] at h
  | cons p rest ih =>
    obtain ⟨k', v'⟩ := p
    by_cases hk : k = k'
    · subst hk
      simp [alookup] at h
      simp [h]
    · simp [alookup, hk] at h
      exact List.mem_cons_of_mem _ (ih h)

theorem alookup_isSome_iff_mem_keys {κ α : Type} [DecidableEq κ]
    (l : List (κ × α)) (k : κ) :
    (alookup l k).isSome ↔ k ∈ l.map Prod.fst := by
  induction l with
  | nil => simp [alookup]
  | cons p rest ih =>
    obtain ⟨k', v'⟩ := p
    by_cases hk : k = k' <;> simp [alookup, hk, ih]

theorem alookup_eq_none_iff {κ α : Type} [DecidableEq κ]
    (l : List (κ × α)) (k : κ) :
    alookup l k = none ↔ k ∉ l.map Prod.fst := by
  rw [← alookup_isSome_iff_mem_keys]
  cases h : alookup l k <;> simp [h]

theorem mem_alookup_of_nodup {κ α : Type} [DecidableEq κ] {l : List (κ × α)}
    {k : κ} {v : α} (hnd : (l.map Prod.fst).Nodup) (h : (k, v) ∈ l) :
    alookup l k = some v := by
  induction l with
  | nil => simp at h
  | cons p rest ih =>
    obtain ⟨k', v'⟩ := p
    simp only [List.map_cons, List.nodup_cons] at hnd
    rcases List.mem_cons.mp h with h1 | h1
    · cases h1
      simp [alookup]
    · have hk : k ≠ k' := by
        rintro rfl
        exact hnd.1 (List.mem_map.mpr ⟨(k, v), h1, rfl⟩)
      simp [alookup, hk, ih hnd.2 h1]

theorem omapM_none_of_mem {α β : Type} {f : α → Option β} {l : List α} {a : α}
    (ha : a ∈ l) (hf : f a = none) : omapM f l = none := by
  induction l with
  | nil => simp at ha
  | cons x xs ih =>
    rcases List.mem_cons.mp ha with h | h
    · subst h; simp [omapM, hf]
    · cases hx : f x
      · simp [omapM, hx]
      · simp [omapM, hx, ih h]

theorem omapM_mem_of_mem {α β : Type} {f : α → Option β} {l : List α}
    {bs : List β} (h : omapM f l = some bs) {a : α} (ha : a ∈ l) :
    ∃ b ∈ bs, f a = some b := by
  induction l generalizing bs with
  | nil => simp at ha
  | cons x xs ih =>
    simp only [omapM] at h
    cases hx : f x with
    | none => rw [hx] at h; exact absurd h (by simp)
    | some b =>
      rw [hx] at h
      cases hxs : omapM f xs with
      | none => rw [hxs] at h; exact absurd h (by simp)
      | some bs' =>
        rw [hxs] at h
        simp only [Option.some.injEq] at h
        subst h
        rcases List.mem_cons.mp ha with h' | h'
        · exact ⟨b, List.mem_cons_self .., h' ▸ hx⟩
        · obtain ⟨b', hb', hfb'⟩ := ih hxs h'
          exact ⟨b', List.mem_cons_of_mem _ hb', hfb'⟩

theorem omapM_exists_of_mem {α β : Type} {f : α → Option β} {l : List α}
    {bs : List β} (h : omapM f l = some bs) {b : β} (hb : b ∈ bs) :
    ∃ a ∈ l, f a = some b := by
  induction l generalizing bs with
  | nil => simp [omapM] at h; subst h; simp at hb
  | cons x xs ih =>
    simp only [omapM] at h
    cases hx : f x with
    | none => rw [hx] at h; exact absurd h (by simp)
    | some b' =>
      rw [hx] at h
      cases hxs : omapM f xs with
      | none => rw [hxs] at h; exact absurd h (by simp)
      | some bs' =>
        rw [hxs] at h
        simp only [Option.some.injEq] at h
        subst h
        rcases List.mem_cons.mp hb with h' | h'
        · exact ⟨x, List.mem_cons_self .., h' ▸ hx⟩
        · obtain ⟨a, ha, hfa⟩ := ih hxs h'
          exact ⟨a, List.mem_cons_of_mem _ ha, hfa⟩

theorem omapM_congr_of_some {α β : Type} {f g : α → Option β} {l : List α}
    {bs : List β} (h : omapM f l = some bs)
    (hfg : ∀ a ∈ l, ∀ b, f a = some b → g a = some b) :
    omapM g l = some bs := by
  induction l generalizing bs with
  | nil => simpa [omapM] using h
  | cons x xs ih =>
    simp only [omapM] at h ⊢
    cases hx : f x with
    | none => rw [hx] at h; exact absurd h (by simp)
    | some b =>
      rw [hx] at h
      cases hxs : omapM f xs with
      | none => rw [hxs] at h; exact absurd h (by simp)
      | some bs' =>
        rw [hxs] at h
        simp only [Option.some.injEq] at h
        rw [hfg x (List.mem_cons_self ..) b hx,
          ih hxs (fun a ha => hfg a (List.mem_cons_of_mem _ ha))]
        simp [h]

theorem omapM_length {α β : Type} {f : α → Option β} {l : List α}
    {bs : List β} (h : omapM f l = some bs) : bs.length = l.length := by
  induction l generalizing bs with
  | nil => simp [omapM] at h; simp [← h]
  | cons x xs ih =>
    simp only [omapM] at h
    cases hx : f x with
    | none => rw [hx] at h; exact absurd h (by simp)
    | some b =>
      rw [hx] at h
      cases hxs : omapM f xs with
      | none => rw [hxs] at h; exact absurd h (by simp)
      | some bs' =>
        rw [hxs] at h
        simp only [Option.some.injEq] at h
        simp [← h, ih hxs]

theorem omapM_append {α β : Type} (f : α → Option β) (l₁ l₂ : List α) :
    omapM f (l₁ ++ l₂) =
      match omapM f l₁, omapM f l₂ with
      | some b₁, some b₂ => some (b₁ ++ b₂)
      | _, _ => none := by
  induction l₁ with
  | nil =>
    simp only [List.nil_append, omapM]
    cases omapM f l₂ <;> rfl
  | cons x xs ih =>
    cases hx : f x with
    | none => simp [omapM, hx]
    | some b =>
      cases h1 : omapM f xs with
      | none => simp [omapM, hx, h1, ih]
      | some b1 =>
        cases h2 : omapM f l₂ with
        | none => simp [omapM, hx, h1, h2, ih]
        | some b2 => simp [omapM, hx, h1, h2, ih]

/-- For the key-value rebuilding steps of the form
`result[name] = lib[name]`: a successful rebuild keeps exactly the input
keys, and every produced pair is a lookup hit. -/
theorem omapM_pairs {κ α : Type} {g : κ → Option α} {ks : List κ}
    {r : List (κ × α)} (h : omapM (fun k => (g k).map (fun v => (k, v))) ks = some r) :
    r.map Prod.fst = ks ∧ ∀ p ∈ r, g p.1 = some p.2 := by
  induction ks generalizing r with
  | nil =>
    simp [omapM] at h
    simp [h]
  | cons x xs ih =>
    simp only [omapM] at h
    cases hx : g x with
    | none => rw [hx] at h; exact absurd h (by simp)
    | some v =>
      rw [hx] at h
      simp only [Option.map_some'] at h
      cases hxs : omapM (fun k => (g k).map (fun v => (k, v))) xs with
      | none => rw [hxs] at h; exact absurd h (by simp)
      | some r' =>
        rw [hxs] at h
        simp only [Option.some.injEq] at h
        obtain ⟨h1, h2⟩ := ih hxs
        subst h
        refine ⟨by simp [h1], ?_⟩
        rintro p hp
        rcases List.mem_cons.mp hp with h' | h'
        · subst h'; exact hx
        · exact h2 p h'

/-! ### Maximum of a weight list -/

theorem natMax_zero (m : Nat) : Nat.max 0 m = m := by simp [Nat.max_def]

theorem natMax_assoc (a b c : Nat) : Nat.max (Nat.max a b) c = Nat.max a (Nat.max b c) :=
  Nat.max_assoc a b c

theorem natMax_le_left (a b : Nat) : a ≤ Nat.max a b := Nat.le_max_left a b

theorem natMax_le_right (a b : Nat) : b ≤ Nat.max a b := Nat.le_max_right a b

theorem natMax_eq_left {a b : Nat} (h : b ≤ a) : Nat.max a b = a := Nat.max_eq_left h

theorem natMax_eq_right {a b : Nat} (h : a ≤ b) : Nat.max a b = b := Nat.max_eq_right h

theorem foldl_max_eq (l : List Nat) : ∀ a : Nat, l.foldl Nat.max a = Nat.max a (natMaxList l) := by
  induction l with
  | nil => intro a; simp [natMaxList]
  | cons x xs ih =>
    intro a
    simp only [natMaxList, List.foldl_cons] at *
    rw [ih (Nat.max a x), ih (Nat.max 0 x), natMax_zero, natMax_assoc]

theorem le_natMaxList {x : Nat} {l : List Nat} (h : x ∈ l) : x ≤ natMaxList l := by
  induction l with
  | nil => simp at h
  | cons y ys ih =>
    have hmax : natMaxList (y :: ys) = Nat.max y (natMaxList ys) := by
      simp only [natMaxList, List.foldl_cons]
      rw [foldl_max_eq, natMax_zero]
      rfl
    rw [hmax]
    rcases List.mem_cons.mp h with h' | h'
    · exact h' ▸ natMax_le_left _ _
    · exact le_trans (ih h') (natMax_le_right _ _)

theorem natMaxList_mem {l : List Nat} (h : l ≠ []) : natMaxList l ∈ l := by
  induction l with
  | nil => exact absurd rfl h
  | cons y ys ih =>
    have hval : natMaxList (y :: ys) = Nat.max y (natMaxList ys) := by
      simp only [natMaxList, List.foldl_cons]
      rw [foldl_max_eq, natMax_zero]
      rfl
    rcases eq_or_ne ys [] with hys | hys
    · subst hys
      simp [natMaxList, natMax_zero]
    · rcases Nat.le_total (natMaxList ys) y with hle | hle
      · rw [hval, natMax_eq_left hle]; exact List.mem_cons_self ..
      · rw [hval, natMax_eq_right hle]
        exact List.mem_cons_of_mem _ (ih hys)

/-! ### Levels bookkeeping -/

theorem nodup_snd_of_flat {lv : List (Nat × List String)}
    (h : (lv.flatMap Prod.snd).Nodup) : ∀ p ∈ lv, p.2.Nodup := by
  induction lv with
  | nil => simp
  | cons q rest ih =>
    simp only [List.flatMap_cons, List.nodup_append] at h
    intro p hp
    rcases List.mem_cons.mp hp with h' | h'
    · subst h'; exact h.1
    · exact ih h.2.1 p h'

theorem alookup_levelAdd_self (lv : List (Nat × List String)) (w : Nat) (n : String) :
    alookup (levelAdd lv w n) w = some (((alookup lv w).getD []) ++ [n]) := by
  induction lv with
  | nil => simp [levelAdd, alookup]
  | cons q rest ih =>
    obtain ⟨k, ns⟩ := q
    by_cases hk : w = k
    · subst hk; simp [levelAdd, alookup]
    · simp [levelAdd, alookup, hk, Ne.symm hk, ih]

theorem alookup_levelAdd_ne {w w' : Nat} (lv : List (Nat × List String)) (n : String)
    (h : w' ≠ w) : alookup (levelAdd lv w n) w' = alookup lv w' := by
  induction lv with
  | nil => simp [levelAdd, alookup, h]
  | cons q rest ih =>
    obtain ⟨k, ns⟩ := q
    by_cases hk : w = k
    · subst hk; simp [levelAdd, alookup, h]
    · by_cases hk' : w' = k <;> simp [levelAdd, alookup, hk, hk', ih]

theorem levelAdd_keys (lv : List (Nat × List String)) (w : Nat) (n : String) :
    (levelAdd lv w n).map Prod.fst =
      if w ∈ lv.map Prod.fst then lv.map Prod.fst else lv.map Prod.fst ++ [w] := by
  induction lv with
  | nil => simp [levelAdd]
  | cons q rest ih =>
    obtain ⟨k, ns⟩ := q
    by_cases hk : w = k
    · subst hk; simp [levelAdd]
    · simp [levelAdd, hk, Ne.symm hk, ih]
      by_cases hmem : w ∈ rest.map Prod.fst <;> simp [hmem, hk]

theorem levelAdd_keys_sub (lv : List (Nat × List String)) (w : Nat) (n : String) :
    lv.map Prod.fst ⊆ (levelAdd lv w n).map Prod.fst := by
  rw [levelAdd_keys]
  by_cases hmem : w ∈ lv.map Prod.fst <;> simp [hmem, List.subset_append_left]

theorem levelAdd_mem_key (lv : List (Nat × List String)) (w : Nat) (n : String) :
    w ∈ (levelAdd lv w n).map Prod.fst := by
  rw [levelAdd_keys]
  by_cases hmem : w ∈ lv.map Prod.fst <;> simp [hmem]

theorem levelAdd_flat (lv : List (Nat × List String)) (w : Nat) (n : String) :
    ((levelAdd lv w n).flatMap Prod.snd).Perm ((lv.flatMap Prod.snd) ++ [n]) := by
  induction lv with
  | nil => simp [levelAdd]
  | cons q rest ih =>
    obtain ⟨k, ns⟩ := q
    by_cases hk : w = k
    · subst hk
      simp [levelAdd, List.append_assoc]
      exact List.Perm.append_left ns (List.perm_append_singleton n _).symm
    · simp only [levelAdd, if_neg hk, List.flatMap_cons, List.append_assoc]
      exact List.Perm.append_left ns ih

/-! ### First positions in a list -/

theorem firstPos_lt_length {x : String} {l : List String} (h : x ∈ l) :
    firstPos l x < l.length := by
  induction l with
  | nil => simp at h
  | cons a rest ih =>
    by_cases ha : a = x
    · simp [firstPos, ha]
    · have hx : x ∈ rest := by
        rcases List.mem_cons.mp h with h' | h'
        · exact absurd h'.symm ha
        · exact h'
      simp only [firstPos, if_neg ha, List.length_cons]
      exact Nat.succ_lt_succ (ih hx)

theorem firstPos_append_of_mem {x : String} {l₁ : List String} (l₂ : List String)
    (h : x ∈ l₁) : firstPos (l₁ ++ l₂) x = firstPos l₁ x := by
  induction l₁ with
  | nil => simp at h
  | cons a rest ih =>
    by_cases ha : a = x
    · simp [firstPos, ha]
    · have hx : x ∈ rest := by
        rcases List.mem_cons.mp h with h' | h'
        · exact absurd h'.symm ha
        · exact h'
      simp [firstPos, ha, ih hx]

theorem firstPos_append_of_not_mem {x : String} {l₁ : List String} (l₂ : List String)
    (h : x ∉ l₁) : firstPos (l₁ ++ l₂) x = l₁.length + firstPos l₂ x := by
  induction l₁ with
  | nil => simp
  | cons a rest ih =>
    have ha : a ≠ x := fun hax => h (hax ▸ List.mem_cons_self ..)
    have hx : x ∉ rest := fun hmem => h (List.mem_cons_of_mem _ hmem)
    rw [List.cons_append]
    have hstep : firstPos (a :: (rest ++ l₂)) x = firstPos (rest ++ l₂) x + 1 := by
      simp [firstPos, ha]
    rw [hstep, ih hx, List.length_cons]
    omega

/-! ### Downward-closed key sets -/

theorem mem_lt_length_of_down {keys : List Nat}
    (hdc : ∀ w ∈ keys, ∀ w' < w, w' ∈ keys) : ∀ k ∈ keys, k < keys.length := by
  intro k hk
  have hsub : List.range (k + 1) ⊆ keys := by
    intro j hj
    have hj' : j < k + 1 := List.mem_range.mp hj
    rcases Nat.lt_or_ge j k with h | h
    · exact hdc k hk j h
    · have : j = k := by omega
      exact this ▸ hk
  have := ((List.nodup_range (k + 1)).subperm hsub).length_le
  simp at this
  omega

/-! ### Weight lookups and extension stability -/

theorem mem_reduceOption_of_mem {α : Type} {l : List (Option α)} {b : α}
    (h : some b ∈ l) : b ∈ l.reduceOption := by
  simp only [List.reduceOption, List.mem_filterMap, id]
  exact ⟨some b, h, rfl⟩

/-- A weight list without `None` entries comes from resolved lookups. -/
theorem weightLookup_resolved {asg : List (String × Nat)} {allNames l wts}
    (h : omapM (weightLookup asg allNames) l = some wts) (hno : none ∉ wts) :
    omapM (alookup asg) l = some wts.reduceOption := by
  induction l generalizing wts with
  | nil =>
    simp [omapM] at h
    subst h
    simp [omapM, List.reduceOption]
  | cons x xs ih =>
    simp only [omapM] at h
    cases hx : weightLookup asg allNames x with
    | none => rw [hx] at h; exact absurd h (by simp)
    | some ow =>
      rw [hx] at h
      cases hxs : omapM (weightLookup asg allNames) xs with
      | none => rw [hxs] at h; exact absurd h (by simp)
      | some wts' =>
        rw [hxs] at h
        simp only [Option.some.injEq] at h
        subst h
        have how : ∃ w, ow = some w ∧ alookup asg x = some w := by
          unfold weightLookup at hx
          cases hax : alookup asg x with
          | some w => rw [hax] at hx; exact ⟨w, by simpa using hx.symm, rfl⟩
          | none =>
            rw [hax] at hx
            by_cases hmem : x ∈ allNames
            · rw [if_pos hmem] at hx
              have : ow = none := by simpa using hx.symm
              exact absurd (this ▸ List.mem_cons_self ..) hno
            · rw [if_neg hmem] at hx
              exact absurd hx (by simp)
        obtain ⟨w, rfl, hax⟩ := how
        have hno' : none ∉ wts' := fun hmem => hno (List.mem_cons_of_mem _ hmem)
        simp [omapM, hax, ih hxs hno', List.reduceOption]

theorem weightLookup_some_some {asg : List (String × Nat)} {allNames x w}
    (h : weightLookup asg allNames x = some (some w)) : alookup asg x = some w := by
  unfold weightLookup at h
  cases hax : alookup asg x with
  | some w' =>
    rw [hax] at h
    have hww : w' = w := by simpa using h
    rw [hww]
  | none =>
    rw [hax] at h
    by_cases hmem : x ∈ allNames
    · rw [if_pos hmem] at h; exact absurd h (by simp)
    · rw [if_neg hmem] at h; exact absurd h (by simp)

theorem alookup_append_single_fresh {asg : List (String × Nat)} {n : String}
    (w : Nat) (h : alookup asg n = none) : alookup (asg ++ [(n, w)]) n = some w := by
  rw [alookup_append_of_none _ h]
  simp [alookup]

theorem alookup_append_single_cases {asg : List (String × Nat)} {n m : String}
    {w wm : Nat} (h : alookup (asg ++ [(n, w)]) m = some wm) :
    alookup asg m = some wm ∨ (alookup asg m = none ∧ m = n ∧ wm = w) := by
  rw [alookup_append] at h
  cases ham : alookup asg m with
  | some v => rw [ham] at h; exact Or.inl (by simpa using h)
  | none =>
    rw [ham] at h
    by_cases hm : m = n
    · subst hm
      simp [alookup] at h
      exact Or.inr ⟨rfl, rfl, h.symm⟩
    · simp [alookup, hm] at h

theorem WFormula_extend {deps : String → List String} {asg : List (String × Nat)}
    {m : String} {wm : Nat} (n : String) (w : Nat)
    (h : WFormula deps asg m wm) : WFormula deps (asg ++ [(n, w)]) m wm := by
  rcases h with ⟨h1, h2⟩ | ⟨h1, ws, h2, h3⟩
  · exact Or.inl ⟨h1, h2⟩
  · exact Or.inr ⟨h1, ws,
      omapM_congr_of_some h2 (fun a _ b hb => alookup_append_of_some _ hb), h3⟩

/-! ### The resolution step preserves the sorter invariant -/

theorem SortInv.asgKeysNodup {deps allNames rem asg lv}
    (inv : SortInv deps allNames rem asg lv) (hA : allNames.Nodup) :
    (rem.Nodup ∧ (asg.map Prod.fst).Nodup ∧ rem.Disjoint (asg.map Prod.fst)) := by
  have := inv.perm.symm.nodup hA
  exact List.nodup_append.mp this

theorem SortInv.weight_key_mem {deps allNames rem asg lv}
    (inv : SortInv deps allNames rem asg lv) {d : String} {wd : Nat}
    (h : alookup asg d = some wd) : ∃ q ∈ lv, q.1 = wd := by
  have hdk : d ∈ asg.map Prod.fst :=
    (alookup_isSome_iff_mem_keys asg d).mp (by simp [h])
  have hdf : d ∈ lv.flatMap Prod.snd := inv.flat.symm.mem_iff.mp hdk
  obtain ⟨p, hp, hdp⟩ := List.mem_flatMap.mp hdf
  have hlk : alookup lv p.1 = some p.2 :=
    mem_alookup_of_nodup inv.keysNodup (by simpa using hp)
  have := inv.inLv p.1 p.2 hlk d hdp
  rw [h] at this
  exact ⟨p, hp, by simpa using this.symm⟩

theorem mem_levelAdd {lv : List (Nat × List String)} {w : Nat} {n : String}
    {p : Nat × List String} (h : p ∈ levelAdd lv w n) : p.1 = w ∨ p ∈ lv := by
  induction lv with
  | nil =>
    simp [levelAdd] at h
    simp [h]
  | cons q rest ih =>
    obtain ⟨k, ns⟩ := q
    by_cases hk : w = k
    · subst hk
      simp only [levelAdd, if_pos rfl] at h
      rcases List.mem_cons.mp h with h' | h'
      · subst h'; exact Or.inl rfl
      · exact Or.inr (List.mem_cons_of_mem _ h')
    · simp only [levelAdd, if_neg hk] at h
      rcases List.mem_cons.mp h with h' | h'
      · subst h'; exact Or.inr (List.mem_cons_self ..)
      · rcases ih h' with h'' | h''
        · exact Or.inl h''
        · exact Or.inr (List.mem_cons_of_mem _ h'')

theorem levelAdd_blocksNE {lv : List (Nat × List String)} {w : Nat} {n : String}
    (h : ∀ p ∈ lv, p.2 ≠ []) : ∀ p ∈ levelAdd lv w n, p.2 ≠ [] := by
  induction lv with
  | nil =>
    intro p hp
    simp [levelAdd] at hp
    simp [hp]
  | cons q rest ih =>
    obtain ⟨k, ns⟩ := q
    intro p hp
    by_cases hk : w = k
    · subst hk
      simp only [levelAdd, if_pos rfl] at hp
      rcases List.mem_cons.mp hp with h' | h'
      · subst h'; simp
      · exact h p (List.mem_cons_of_mem _ h')
    · simp only [levelAdd, if_neg hk] at hp
      rcases List.mem_cons.mp hp with h' | h'
      · subst h'; exact h (k, ns) (List.mem_cons_self ..)
      · exact ih (fun p' hp' => h p' (List.mem_cons_of_mem _ hp')) p h'

theorem key_mem_levelAdd_of_key_mem {lv : List (Nat × List String)} {w w' : Nat}
    (n : String) (h : ∃ q ∈ lv, q.1 = w') : ∃ q ∈ levelAdd lv w n, q.1 = w' := by
  obtain ⟨q, hq, hq1⟩ := h
  have : w' ∈ (levelAdd lv w n).map Prod.fst :=
    levelAdd_keys_sub lv w n (List.mem_map.mpr ⟨q, hq, hq1⟩)
  obtain ⟨q', hq', hq1'⟩ := List.mem_map.mp this
  exact ⟨q', hq', hq1'⟩

theorem key_self_mem_levelAdd (lv : List (Nat × List String)) (w : Nat) (n : String) :
    ∃ q ∈ levelAdd lv w n, q.1 = w := by
  obtain ⟨q, hq, hq1⟩ := List.mem_map.mp (levelAdd_mem_key lv w n)
  exact ⟨q, hq, hq1⟩

/-- Resolving one name with the weight the source computes preserves the
loop invariant. -/
theorem SortInv.resolve {deps allNames rem asg lv}
    (inv : SortInv deps allNames rem asg lv) (hA : allNames.Nodup)
    {n : String} (hn : n ∈ rem) {w : Nat}
    (hform : WFormula deps asg n w)
    (hdeps : ∀ d ∈ deps n, ∃ wd, alookup asg d = some wd ∧ wd < w) :
    SortInv deps allNames (rem.erase n) (asg ++ [(n, w)]) (levelAdd lv w n) := by
  obtain ⟨hremnd, hasgnd, hdisj⟩ := inv.asgKeysNodup hA
  have hfresh : alookup asg n = none :=
    (alookup_eq_none_iff asg n).mpr (hdisj hn)
  have hstab : ∀ m wm, alookup asg m = some wm → alookup (asg ++ [(n, w)]) m = some wm :=
    fun m wm hm => alookup_append_of_some _ hm
  have hkeysnew : (asg ++ [(n, w)]).map Prod.fst = asg.map Prod.fst ++ [n] := by simp
  have hself : alookup (asg ++ [(n, w)]) n = some w := alookup_append_single_fresh w hfresh
  have hkey : w = 0 ∨ ∃ q ∈ lv, q.1 = w - 1 := by
    rcases hform with ⟨h1, h2⟩ | ⟨h1, ws, h2, h3⟩
    · exact Or.inl h2
    · right
      have hlen := omapM_length h2
      have hwsne : ws ≠ [] := by
        intro hws
        rw [hws] at hlen
        exact h1 (List.eq_nil_of_length_eq_zero hlen.symm)
      obtain ⟨d, hd, hdw⟩ := omapM_exists_of_mem h2 (natMaxList_mem hwsne)
      have := inv.weight_key_mem hdw
      rw [h3]
      simpa using this
  constructor
  case perm =>
    rw [hkeysnew, ← List.append_assoc]
    have h1 : (rem.erase n ++ asg.map Prod.fst ++ [n]).Perm
        (n :: (rem.erase n ++ asg.map Prod.fst)) := List.perm_append_singleton _ _
    have h2 : (n :: (rem.erase n ++ asg.map Prod.fst)).Perm (rem ++ asg.map Prod.fst) := by
      have : ((n :: rem.erase n) ++ asg.map Prod.fst).Perm (rem ++ asg.map Prod.fst) :=
        List.Perm.append_right _ (List.perm_cons_erase hn).symm
      simpa using this
    exact (h1.trans h2).trans inv.perm
  case flat =>
    rw [hkeysnew]
    exact (levelAdd_flat lv w n).trans (inv.flat.append_right _)
  case inLv =>
    intro w' ns' hlk m hm
    by_cases hw' : w' = w
    · subst hw'
      rw [alookup_levelAdd_self] at hlk
      simp only [Option.some.injEq] at hlk
      subst hlk
      rcases List.mem_append.mp hm with h' | h'
      · cases holv : alookup lv w' with
        | none => rw [holv] at h'; simp at h'
        | some old =>
          rw [holv] at h'
          exact hstab m w' (inv.inLv w' old holv m h')
      · have : m = n := by simpa using h'
        subst this
        exact hself
    · rw [alookup_levelAdd_ne lv n hw'] at hlk
      exact hstab m w' (inv.inLv w' ns' hlk m hm)
  case keysNodup =>
    rw [levelAdd_keys]
    by_cases hmem : w ∈ lv.map Prod.fst
    · simpa [hmem] using inv.keysNodup
    · simp only [if_neg hmem]
      rw [List.nodup_append]
      refine ⟨inv.keysNodup, List.nodup_singleton w, ?_⟩
      intro a ha hmem'
      have : a = w := by simpa using hmem'
      exact hmem (this ▸ ha)
  case down =>
    intro p' hp' w' hw'
    rcases mem_levelAdd hp' with h' | h'
    · rw [h'] at hw'
      rcases hkey with h0 | ⟨q, hq, hq1⟩
      · omega
      · have hw'le : w' ≤ w - 1 := by omega
        rcases Nat.lt_or_ge w' (w - 1) with hlt | hge
        · exact key_mem_levelAdd_of_key_mem n (inv.down q hq w' (by omega))
        · have : w' = w - 1 := by omega
          exact key_mem_levelAdd_of_key_mem n ⟨q, hq, by omega⟩
    · exact key_mem_levelAdd_of_key_mem n (inv.down p' h' w' hw')
  case blocksNE => exact levelAdd_blocksNE inv.blocksNE
  case depsLt =>
    intro m wm hm d hd
    rcases alookup_append_single_cases hm with h' | ⟨h1, h2, h3⟩
    · obtain ⟨wd, hwd, hlt⟩ := inv.depsLt m wm h' d hd
      exact ⟨wd, hstab d wd hwd, hlt⟩
    · subst h2; subst h3
      obtain ⟨wd, hwd, hlt⟩ := hdeps d hd
      exact ⟨wd, hstab d wd hwd, hlt⟩
  case formula =>
    intro m wm hm
    rcases alookup_append_single_cases hm with h' | ⟨h1, h2, h3⟩
    · exact WFormula_extend n w (inv.formula m wm h')
    · subst h2; subst h3
      exact WFormula_extend _ _ hform

/-! ### The pass and loop preserve the invariant -/

theorem onePass_inv {deps : String → List String} {allNames : List String}
    (hA : allNames.Nodup) :
    ∀ (todo rem : List String) (asg : List (String × Nat))
      (lv : List (Nat × List String)),
    SortInv deps allNames rem asg lv → (∀ x ∈ todo, x ∈ rem) → todo.Nodup →
    ∀ rem' asg' lv', onePass deps allNames todo rem asg lv = some (rem', asg', lv') →
    SortInv deps allNames rem' asg' lv' := by
  intro todo
  induction todo with
  | nil =>
    intro rem asg lv inv hsub hnd rem' asg' lv' h
    simp only [onePass, Option.some.injEq, Prod.mk.injEq] at h
    obtain ⟨h1, h2, h3⟩ := h
    exact h1 ▸ h2 ▸ h3 ▸ inv
  | cons n todo ih =>
    intro rem asg lv inv hsub hnd rem' asg' lv' h
    have hn : n ∈ rem := hsub n (List.mem_cons_self ..)
    have hsub' : ∀ x ∈ todo, x ∈ rem := fun x hx => hsub x (List.mem_cons_of_mem _ hx)
    obtain ⟨hntodo, hndtodo⟩ := List.nodup_cons.mp hnd
    have hsubE : ∀ x ∈ todo, x ∈ rem.erase n := by
      intro x hx
      have hxn : x ≠ n := fun hxn => hntodo (hxn ▸ hx)
      exact (List.mem_erase_of_ne hxn).mpr (hsub' x hx)
    simp only [onePass] at h
    cases hw : depWeights deps asg allNames n with
    | none => rw [hw] at h; exact absurd h (by simp)
    | some wts =>
      simp only [hw] at h
      by_cases hwts : wts = []
      · rw [if_pos hwts] at h
        subst hwts
        have hdepsnil : deps n = [] := by
          have := omapM_length hw
          exact List.eq_nil_of_length_eq_zero this.symm
        have inv' := inv.resolve hA hn (Or.inl ⟨hdepsnil, rfl⟩)
          (by rw [hdepsnil]; intro d hd; simp at hd)
        exact ih (rem.erase n) _ _ inv' hsubE hndtodo rem' asg' lv' h
      · rw [if_neg hwts] at h
        by_cases hnone : none ∈ wts
        · rw [if_pos hnone] at h
          exact ih rem asg lv inv hsub' hndtodo rem' asg' lv' h
        · rw [if_neg hnone] at h
          have homap := weightLookup_resolved hw hnone
          have hdepsne : deps n ≠ [] := by
            intro hd
            have hlen := omapM_length hw
            rw [hd] at hlen
            simp at hlen
            exact hwts hlen
          have hform : WFormula deps asg n (natMaxList wts.reduceOption + 1) :=
            Or.inr ⟨hdepsne, wts.reduceOption, homap, rfl⟩
          have hdeps : ∀ d ∈ deps n,
              ∃ wd, alookup asg d = some wd ∧ wd < natMaxList wts.reduceOption + 1 := by
            intro d hd
            obtain ⟨ow, how, hfd⟩ := omapM_mem_of_mem hw hd
            cases ow with
            | none => exact absurd how hnone
            | some wd =>
              refine ⟨wd, weightLookup_some_some hfd, ?_⟩
              have : wd ∈ wts.reduceOption := mem_reduceOption_of_mem how
              have := le_natMaxList this
              omega
          have inv' := inv.resolve hA hn hform hdeps
          exact ih (rem.erase n) _ _ inv' hsubE hndtodo rem' asg' lv' h

theorem sortLoop_inv {deps : String → List String} {allNames : List String}
    (hA : allNames.Nodup) :
    ∀ (fuel : Nat) (rem : List String) (asg : List (String × Nat))
      (lv : List (Nat × List String)) (asgF : List (String × Nat))
      (lvF : List (Nat × List String)),
    SortInv deps allNames rem asg lv →
    sortLoop deps allNames fuel rem asg lv = some (asgF, lvF) →
    SortInv deps allNames [] asgF lvF := by
  intro fuel
  induction fuel with
  | zero =>
    intro rem asg lv asgF lvF inv h
    cases rem with
    | nil =>
      simp only [sortLoop, Option.some.injEq, Prod.mk.injEq] at h
      exact h.1 ▸ h.2 ▸ inv
    | cons r rs => simp [sortLoop] at h
  | succ fuel ih =>
    intro rem asg lv asgF lvF inv h
    cases rem with
    | nil =>
      simp only [sortLoop, Option.some.injEq, Prod.mk.injEq] at h
      exact h.1 ▸ h.2 ▸ inv
    | cons r rs =>
      simp only [sortLoop] at h
      cases hp : onePass deps allNames (r :: rs) (r :: rs) asg lv with
      | none => rw [hp] at h; exact absurd h (by simp)
      | some res =>
        obtain ⟨rem', asg', lv'⟩ := res
        rw [hp] at h
        have hremnd : (r :: rs).Nodup := (inv.asgKeysNodup hA).1
        have inv' := onePass_inv hA (r :: rs) (r :: rs) asg lv inv
          (fun x hx => hx) hremnd rem' asg' lv' hp
        exact ih rem' asg' lv' asgF lvF inv' h

/-- The initial state of the weight loop satisfies the invariant, so a
successful `sortDetail` run ends in an invariant-satisfying final state. -/
theorem sortDetail_inv {lib precomputed : List (String × BasicCodeBlock)}
    {asg : List (String × Nat)} {lv : List (Nat × List String)}
    (hnd : (precomputed.map Prod.fst).Nodup)
    (h : sortDetail lib precomputed = some (asg, lv)) :
    SortInv (sortDeps lib precomputed) (precomputed.map Prod.fst) [] asg lv := by
  have inv0 : SortInv (sortDeps lib precomputed) (precomputed.map Prod.fst)
      (precomputed.map Prod.fst) [] [] := by
    constructor
    case perm => simp
    case flat => simp
    case inLv => intro w ns hlk; simp [alookup] at hlk
    case keysNodup => simp
    case down => intro p hp; simp at hp
    case blocksNE => intro p hp; simp at hp
    case depsLt => intro n w hn; simp [alookup] at hn
    case formula => intro n w hn; simp [alookup] at hn
  exact sortLoop_inv hnd _ _ _ _ _ _ inv0 h

/-! ### Consequences of the invariant at the final state -/

theorem SortInv.keys_lt {deps : String → List String} {allNames asg lv}
    (inv : SortInv deps allNames [] asg lv) : ∀ q ∈ lv, q.1 < lv.length := by
  intro q hq
  have hdc : ∀ w ∈ lv.map Prod.fst, ∀ w' < w, w' ∈ lv.map Prod.fst := by
    intro w hw w' hw'
    obtain ⟨p, hp, hp1⟩ := List.mem_map.mp hw
    obtain ⟨q', hq', hq1'⟩ := inv.down p hp w' (hp1 ▸ hw')
    exact List.mem_map.mpr ⟨q', hq', hq1'⟩
  have := mem_lt_length_of_down hdc q.1 (List.mem_map.mpr ⟨q, hq, rfl⟩)
  simpa using this

theorem SortInv.mem_block_iff {deps : String → List String} {allNames asg lv}
    (inv : SortInv deps allNames [] asg lv) (x : String) (i : Nat) :
    x ∈ sortedLevel ((alookup lv i).getD []) ↔ alookup asg x = some i := by
  constructor
  · intro hx
    have hx' : x ∈ (alookup lv i).getD [] :=
      (List.mem_insertionSort strLe).mp hx
    cases hlk : alookup lv i with
    | none => rw [hlk] at hx'; simp at hx'
    | some ns =>
      rw [hlk] at hx'
      exact inv.inLv i ns hlk x hx'
  · intro hx
    have hxk : x ∈ asg.map Prod.fst :=
      (alookup_isSome_iff_mem_keys asg x).mp (by simp [hx])
    have hxf : x ∈ lv.flatMap Prod.snd := inv.flat.symm.mem_iff.mp hxk
    obtain ⟨p, hp, hxp⟩ := List.mem_flatMap.mp hxf
    have hlk : alookup lv p.1 = some p.2 :=
      mem_alookup_of_nodup inv.keysNodup (by simpa using hp)
    have := inv.inLv p.1 p.2 hlk x hxp
    rw [hx] at this
    have hpi : p.1 = i := by simpa using this.symm
    rw [← hpi, sortedLevel]
    exact (List.mem_insertionSort strLe).mpr (by rw [hlk]; exact hxp)

theorem SortInv.total {deps : String → List String} {allNames asg lv}
    (inv : SortInv deps allNames [] asg lv) (n : String) :
    (alookup asg n).isSome ↔ n ∈ allNames := by
  rw [alookup_isSome_iff_mem_keys]
  have hperm : (asg.map Prod.fst).Perm allNames := by
    have := inv.perm
    simpa using this
  exact hperm.mem_iff

theorem SortInv.mem_orderedOf_iff {deps : String → List String} {allNames asg lv}
    (inv : SortInv deps allNames [] asg lv) (x : String) :
    x ∈ orderedOf lv ↔ x ∈ allNames := by
  constructor
  · intro hx
    obtain ⟨i, _, hxi⟩ := List.mem_flatMap.mp hx
    have := (inv.mem_block_iff x i).mp hxi
    exact (inv.total x).mp (by simp [this])
  · intro hx
    obtain ⟨w, hw⟩ := Option.isSome_iff_exists.mp ((inv.total x).mpr hx)
    have hblock := (inv.mem_block_iff x w).mpr hw
    obtain ⟨q, hq, hq1⟩ := inv.weight_key_mem hw
    have hwlt : w < lv.length := hq1 ▸ inv.keys_lt q hq
    exact List.mem_flatMap.mpr ⟨w, List.mem_range.mpr hwlt, hblock⟩

/-- A name of strictly smaller weight appears strictly earlier in the
level-concatenated output. -/
theorem flatRange_pos (f : Nat → List String) (asg : List (String × Nat))
    (hpure : ∀ i y, y ∈ f i → alookup asg y = some i) :
    ∀ (L : Nat) (x d : String) (wx wd : Nat),
    alookup asg x = some wx → alookup asg d = some wd → wd < wx → wx < L →
    d ∈ f wd → x ∈ f wx →
    firstPos ((List.range L).flatMap f) d < firstPos ((List.range L).flatMap f) x := by
  intro L
  induction L with
  | zero => intro x d wx wd _ _ _ hwx; omega
  | succ L ih =>
    intro x d wx wd hx hd hlt hwx hdf hxf
    rw [List.range_succ, List.flatMap_append]
    have hflatL : ([L] : List Nat).flatMap f = f L := by simp
    rw [hflatL]
    have hdM : d ∈ (List.range L).flatMap f := by
      refine List.mem_flatMap.mpr ⟨wd, List.mem_range.mpr ?_, hdf⟩
      omega
    rcases Nat.lt_or_ge wx L with hcase | hcase
    · have hxM : x ∈ (List.range L).flatMap f :=
        List.mem_flatMap.mpr ⟨wx, List.mem_range.mpr hcase, hxf⟩
      rw [firstPos_append_of_mem _ hdM, firstPos_append_of_mem _ hxM]
      exact ih x d wx wd hx hd hlt hcase hdf hxf
    · have hwxL : wx = L := by omega
      have hxM : x ∉ (List.range L).flatMap f := by
        intro hmem
        obtain ⟨i, hi, hxi⟩ := List.mem_flatMap.mp hmem
        have := hpure i x hxi
        rw [hx] at this
        have hwxi : wx = i := by simpa using this
        have := List.mem_range.mp hi
        omega
      rw [firstPos_append_of_mem _ hdM, firstPos_append_of_not_mem _ hxM]
      have := firstPos_lt_length hdM
      omega

/-- Inversion of a successful `sort_precomputed` run. -/
theorem sort_precomputed_inv {lib precomputed : List (String × BasicCodeBlock)}
    {r : List (String × BasicCodeBlock)}
    (h : sort_precomputed lib precomputed = some r) :
    ∃ asg lv, sortDetail lib precomputed = some (asg, lv) ∧
      omapM (fun n => (alookup lib n).map (fun cb => (n, cb))) (orderedOf lv) = some r := by
  unfold sort_precomputed at h
  cases hd : sortDetail lib precomputed with
  | none => rw [hd] at h; exact absurd h (by simp)
  | some res =>
    obtain ⟨asg, lv⟩ := res
    rw [hd] at h
    exact ⟨asg, lv, rfl, h⟩

/-- A successful sort returns exactly the input names (as a set), with
every value looked up in the library (line 262). -/
theorem sort_precomputed_keys {lib precomputed r : List (String × BasicCodeBlock)}
    (hnd : (precomputed.map Prod.fst).Nodup)
    (h : sort_precomputed lib precomputed = some r) :
    (∀ p ∈ r, alookup lib p.1 = some p.2) ∧
      (∀ x, x ∈ r.map Prod.fst ↔ x ∈ precomputed.map Prod.fst) := by
  obtain ⟨asg, lv, hd, hmap⟩ := sort_precomputed_inv h
  obtain ⟨hkeys, hvals⟩ := omapM_pairs hmap
  have inv := sortDetail_inv hnd hd
  refine ⟨hvals, ?_⟩
  intro x
  rw [hkeys]
  exact inv.mem_orderedOf_iff x

/-! ### Closure-loop lemmas -/

theorem ClosedIn_mono {lib : List (String × BasicCodeBlock)} {P P' : List String}
    {x : String} (hsub : ∀ y ∈ P, y ∈ P') (h : ClosedIn lib P x) :
    ClosedIn lib P' x :=
  fun cb hcb s hs hslib => hsub s (h cb hcb s hs hslib)

/-- What one closure pass guarantees for the frontier: every library
symbol a frontier block references lands in the old set or in `all_new`. -/
theorem closurePass_frontier {lib : List (String × BasicCodeBlock)}
    {P F allNew : List String} (hcp : closurePass lib P F = some allNew) :
    ∀ x ∈ F, ∀ cb, alookup lib x = some cb → ∀ s ∈ cb.symbols,
      (alookup lib s).isSome → s ∈ P ∨ s ∈ allNew := by
  unfold closurePass at hcp
  cases ho : omapM (fun s => alookup lib s) F with
  | none => rw [ho] at hcp; exact absurd hcp (by simp)
  | some blocks =>
    rw [ho] at hcp
    simp only [Option.some.injEq] at hcp
    intro x hx cb hcb s hs hslib
    have hcbmem : cb ∈ blocks := by
      obtain ⟨b, hb, hfb⟩ := omapM_mem_of_mem ho hx
      rw [hcb] at hfb
      exact (Option.some.injEq .. ▸ hfb) ▸ hb
    have hsref : s ∈ blocks.flatMap (fun cb => cb.symbols) :=
      List.mem_flatMap.mpr ⟨cb, hcbmem, hs⟩
    by_cases hsP : s ∈ P
    · exact Or.inl hsP
    · right
      rw [← hcp]
      refine List.mem_filter.mpr ⟨?_, ?_⟩
      · exact (alookup_isSome_iff_mem_keys lib s).mp hslib
      · simp [hsref, hsP]

theorem closureLoop_closed {lib : List (String × BasicCodeBlock)} :
    ∀ (fuel : Nat) (P F R : List String),
    closureLoop lib fuel P F = some R →
    (∀ x ∈ P, x ∈ F ∨ ClosedIn lib P x) →
    ∀ x ∈ R, ClosedIn lib R x := by
  intro fuel
  induction fuel with
  | zero => intro P F R h; simp [closureLoop] at h
  | succ fuel ih =>
    intro P F R h hpre
    simp only [closureLoop] at h
    cases hcp : closurePass lib P F with
    | none => rw [hcp] at h; exact absurd h (by simp)
    | some allNew =>
      simp only [hcp] at h
      by_cases hnil : allNew = []
      · rw [if_pos hnil] at h
        simp only [Option.some.injEq] at h
        subst h
        intro x hx
        rcases hpre x hx with hxF | hxC
        · intro cb hcb s hs hslib
          rcases closurePass_frontier hcp x hxF cb hcb s hs hslib with h' | h'
          · exact h'
          · rw [hnil] at h'; simp at h'
        · exact hxC
      · rw [if_neg hnil] at h
        refine ih (P ++ allNew) allNew R h ?_
        intro x hx
        rcases List.mem_append.mp hx with hxP | hxN
        · rcases hpre x hxP with hxF | hxC
          · right
            intro cb hcb s hs hslib
            rcases closurePass_frontier hcp x hxF cb hcb s hs hslib with h' | h'
            · exact List.mem_append.mpr (Or.inl h')
            · exact List.mem_append.mpr (Or.inr h')
          · exact Or.inr (ClosedIn_mono (fun y hy => List.mem_append.mpr (Or.inl hy)) hxC)
        · exact Or.inl hxN

theorem closureLoop_nodup {lib : List (String × BasicCodeBlock)}
    (hlib : (libKeys lib).Nodup) :
    ∀ (fuel : Nat) (P F R : List String),
    closureLoop lib fuel P F = some R → P.Nodup → R.Nodup := by
  intro fuel
  induction fuel with
  | zero => intro P F R h; simp [closureLoop] at h
  | succ fuel ih =>
    intro P F R h hP
    simp only [closureLoop] at h
    cases hcp : closurePass lib P F with
    | none => rw [hcp] at h; exact absurd h (by simp)
    | some allNew =>
      simp only [hcp] at h
      by_cases hnil : allNew = []
      · rw [if_pos hnil] at h
        simp only [Option.some.injEq] at h
        exact h ▸ hP
      · rw [if_neg hnil] at h
        refine ih (P ++ allNew) allNew R h ?_
        have hNewNodup : allNew.Nodup := by
          unfold closurePass at hcp
          cases ho : omapM (fun s => alookup lib s) F with
          | none => rw [ho] at hcp; exact absurd hcp (by simp)
          | some blocks =>
            rw [ho] at hcp
            simp only [Option.some.injEq] at hcp
            exact hcp ▸ hlib.filter _
        rw [List.nodup_append]
        refine ⟨hP, hNewNodup, ?_⟩
        intro a haP haN
        unfold closurePass at hcp
        cases ho : omapM (fun s => alookup lib s) F with
        | none => rw [ho] at hcp; exact absurd hcp (by simp)
        | some blocks =>
          rw [ho] at hcp
          simp only [Option.some.injEq] at hcp
          rw [← hcp] at haN
          have := (List.mem_filter.mp haN).2
          simp [haP] at this

/-- Inversion of a successful `setupPrecomputed` run. -/
theorem setupPrecomputed_inv {lib : List (String × BasicCodeBlock)}
    {eqs : List Equation} {r : List (String × BasicCodeBlock)}
    (h : setupPrecomputed lib eqs = some r) :
    ∃ args closed assoc,
      allLoopArgs eqs = some args ∧
      closureLoop lib (lib.length + 1)
        ((libKeys lib).filter (fun s => decide (s ∈ args)))
        ((libKeys lib).filter (fun s => decide (s ∈ args))) = some closed ∧
      omapM (fun n => (alookup lib n).map (fun cb => (n, cb))) closed = some assoc ∧
      sort_precomputed lib assoc = some r := by
  unfold setupPrecomputed at h
  cases ha : allLoopArgs eqs with
  | none => rw [ha] at h; exact absurd h (by simp)
  | some args =>
    simp only [ha] at h
    cases hc : closureLoop lib (lib.length + 1)
        ((libKeys lib).filter (fun s => decide (s ∈ args)))
        ((libKeys lib).filter (fun s => decide (s ∈ args))) with
    | none =>
      rw [hc] at h; exact absurd h (by simp)
    | some closed =>
      simp only [hc] at h
      cases ho : omapM (fun n => (alookup lib n).map (fun cb => (n, cb))) closed with
      | none => rw [ho] at h; exact absurd h (by simp)
      | some assoc =>
        simp only [ho] at h
        exact ⟨args, closed, assoc, rfl, hc, ho, h⟩

/-! ## Claim theorems -/

/-- C1: for every set of equations in a Group, the resolved precomputed
set is dependency-closed: if a symbol `x` is in the resolved set (an entry
of `self.precomputed`), then every symbol referenced by `x`'s code block
that is itself a `PrecomputedLibrary` name is also in the resolved set. -/
theorem c1_closure_completeness (eqs : List Equation)
    (r : List (String × BasicCodeBlock))
    (h : setupPrecomputed preComp eqs = some r) :
    ∀ p ∈ r, ∀ s ∈ p.2.symbols, (alookup preComp s).isSome →
      s ∈ r.map Prod.fst := by
  have hlib : (libKeys preComp).Nodup := by decide
  obtain ⟨args, closed, assoc, ha, hc, ho, hs⟩ := setupPrecomputed_inv h
  have hP0 : ((libKeys preComp).filter (fun s => decide (s ∈ args))).Nodup :=
    hlib.filter _
  have hclosednd : closed.Nodup := closureLoop_nodup hlib _ _ _ _ hc hP0
  obtain ⟨hassoc_keys, hassoc_vals⟩ := omapM_pairs ho
  have hassoc_nd : (assoc.map Prod.fst).Nodup := hassoc_keys ▸ hclosednd
  obtain ⟨hrvals, hrkeys⟩ := sort_precomputed_keys hassoc_nd hs
  have hclosed : ∀ x ∈ closed, ClosedIn preComp closed x :=
    closureLoop_closed _ _ _ _ hc (fun x hx => Or.inl hx)
  intro p hp s hsym hsome
  have hpr : p.1 ∈ r.map Prod.fst := List.mem_map.mpr ⟨p, hp, rfl⟩
  have hpclosed : p.1 ∈ closed := by
    have := (hrkeys p.1).mp hpr
    rw [hassoc_keys] at this
    exact this
  have hlup : alookup preComp p.1 = some p.2 := hrvals p hp
  have hsclosed : s ∈ closed := hclosed p.1 hpclosed p.2 hlup s hsym hsome
  rw [hrkeys s, hassoc_keys]
  exact hsclosed

/-- Witness for C1 at the `RIJ` group: `R2IJ` is resolved and its
dependency `XIJ` is in the resolved set although no equation mentions it. -/
theorem c1_closure_completeness_witness :
    setupPrecomputed preComp [eqRIJ] = some resolvedRIJ ∧
      "XIJ" ∈ resolvedRIJ.map Prod.fst :=
  ⟨by decide,
    c1_closure_completeness [eqRIJ] resolvedRIJ (by decide)
      ("R2IJ", r2ijBlock) (by decide) "XIJ" (by decide) (by decide)⟩

/-- C2: every order the sorter produces is topologically sound — a
dependency of `x` that is present in the resolved set appears at a
position strictly before `x`'s. -/
theorem c2_topological_soundness (S r : List (String × BasicCodeBlock))
    (hnd : (S.map Prod.fst).Nodup)
    (h : sort_precomputed preComp S = some r) :
    ∀ x ∈ r.map Prod.fst, ∀ d ∈ sortDeps preComp S x, d ∈ r.map Prod.fst →
      firstPos (r.map Prod.fst) d < firstPos (r.map Prod.fst) x := by
  obtain ⟨asg, lv, hd, hmap⟩ := sort_precomputed_inv h
  obtain ⟨hkeys, _⟩ := omapM_pairs hmap
  have inv := sortDetail_inv hnd hd
  intro x hx d hdep _
  rw [hkeys] at hx ⊢
  have hxnames : x ∈ S.map Prod.fst := (inv.mem_orderedOf_iff x).mp hx
  obtain ⟨wx, hwx⟩ := Option.isSome_iff_exists.mp ((inv.total x).mpr hxnames)
  obtain ⟨wd, hwd, hlt⟩ := inv.depsLt x wx hwx d hdep
  have hdblock := (inv.mem_block_iff d wd).mpr hwd
  have hxblock := (inv.mem_block_iff x wx).mpr hwx
  obtain ⟨q, hq, hq1⟩ := inv.weight_key_mem hwx
  have hwxlt : wx < lv.length := hq1 ▸ inv.keys_lt q hq
  exact flatRange_pos _ asg (fun i y hy => (inv.mem_block_iff y i).mp hy)
    lv.length x d wx wd hwx hwd hlt hwxlt hdblock hxblock

/-- Witness for C2 on the closed set `{RIJ, XIJ, R2IJ}`: `R2IJ` precedes
its dependent `RIJ` in the resolved order. -/
theorem c2_topological_soundness_witness :
    sort_precomputed preComp closedS = some resolvedRIJ ∧
      firstPos (resolvedRIJ.map Prod.fst) "R2IJ" <
        firstPos (resolvedRIJ.map Prod.fst) "RIJ" :=
  ⟨by decide,
    c2_topological_soundness closedS resolvedRIJ (by decide) (by decide)
      "RIJ" (by decide) "R2IJ" (by decide) (by decide)⟩

/-- C3, counterexample: for the subset `S = {RIJ}` of the library, the
dependency set the sorter computes for `RIJ` is its symbol set intersected
with the whole library (`[R2IJ]`, line 234 tests `x in pre_comp`), not
with `S` itself (which would give `[]`); the weight loop then aborts on
the out-of-`S` dependency (`weights[R2IJ]` raises `KeyError`). -/
theorem c3_counterexample :
    ("RIJ", rijBlock) ∈ soloRIJ ∧
    alookup preComp "RIJ" = some rijBlock ∧
    sortDeps preComp soloRIJ "RIJ" = ["R2IJ"] ∧
    specDependsOf soloRIJ "RIJ" rijBlock = [] ∧
    sortDeps preComp soloRIJ "RIJ" ≠ specDependsOf soloRIJ "RIJ" rijBlock ∧
    sort_precomputed preComp soloRIJ = none := by
  refine ⟨by decide, by decide, by decide, by decide, by decide, by decide⟩

/-- C3, amended: the sorter's dependency set for each name in `S` is the
name's symbol set intersected with the full library key set (excluding the
name itself); when `S` is dependency-closed — as every set produced by
group resolution is — this coincides with the intersection with `S` that
the spec describes. -/
theorem c3_amended {S : List (String × BasicCodeBlock)}
    (hvals : ∀ p ∈ S, alookup preComp p.1 = some p.2)
    (hclosed : ∀ p ∈ S, ∀ s ∈ p.2.symbols, (alookup preComp s).isSome →
      s ∈ S.map Prod.fst)
    (hnd : (S.map Prod.fst).Nodup) :
    ∀ p ∈ S, sortDeps preComp S p.1 = specDependsOf S p.1 p.2 := by
  intro p hp
  have hSlk : alookup S p.1 = some p.2 := by
    obtain ⟨k, v⟩ := p
    exact mem_alookup_of_nodup hnd hp
  unfold sortDeps
  rw [hSlk]
  unfold dependsOf specDependsOf
  apply List.filter_congr
  intro x hx
  by_cases hxp : x = p.1
  · simp [hxp]
  · have hxb : (x != p.1) = true := by simp [hxp]
    rw [hxb]
    simp only [Bool.and_true]
    have hiff : (alookup preComp x).isSome ↔ (alookup S x).isSome := by
      constructor
      · intro hsome
        have := hclosed p hp x hx hsome
        exact (alookup_isSome_iff_mem_keys S x).mpr this
      · intro hsome
        obtain ⟨cb, hcb⟩ := Option.isSome_iff_exists.mp hsome
        obtain ⟨q, hq, hq1⟩ : ∃ q ∈ S, q.1 = x := by
          have := (alookup_isSome_iff_mem_keys S x).mp hsome
          obtain ⟨q, hq, hq1⟩ := List.mem_map.mp this
          exact ⟨q, hq, hq1⟩
        have := hvals q hq
        rw [hq1] at this
        simp [this]
    cases h1 : (alookup preComp x).isSome <;> cases h2 : (alookup S x).isSome <;>
      simp_all

/-- Witness for the amended C3 on the closed set `{RIJ, XIJ, R2IJ}`. -/
theorem c3_amended_witness :
    sortDeps preComp closedS "RIJ" = specDependsOf closedS "RIJ" rijBlock :=
  c3_amended (by decide) (by decide) (by decide) ("RIJ", rijBlock) (by decide)

/-! ### Determinism of the sorter (claim C4 machinery) -/

theorem alookup_perm {κ α : Type} [DecidableEq κ] {l1 l2 : List (κ × α)}
    (hp : l1.Perm l2) (hnd : (l1.map Prod.fst).Nodup) (k : κ) :
    alookup l1 k = alookup l2 k := by
  have hnd2 : (l2.map Prod.fst).Nodup := (hp.map Prod.fst).nodup hnd
  cases h : alookup l1 k with
  | some v =>
    exact (mem_alookup_of_nodup hnd2 (hp.subset (alookup_eq_some_mem h))).symm
  | none =>
    symm
    rw [alookup_eq_none_iff] at h ⊢
    intro hmem
    exact h ((hp.map Prod.fst).mem_iff.mpr hmem)

theorem flatMap_congr {α β : Type} {l : List α} {f g : α → List β}
    (h : ∀ a ∈ l, f a = g a) : l.flatMap f = l.flatMap g := by
  induction l with
  | nil => rfl
  | cons x xs ih =>
    simp only [List.flatMap_cons]
    rw [h x (List.mem_cons_self ..), ih (fun a ha => h a (List.mem_cons_of_mem _ ha))]

theorem flatMap_range_if {g : Nat → List String} (L w : Nat) :
    (List.range L).flatMap (fun i => if i = w then g i else []) =
      if w < L then g w else [] := by
  induction L with
  | zero => simp
  | succ L ih =>
    rw [List.range_succ, List.flatMap_append, ih]
    rcases Nat.lt_trichotomy w L with hc | hc | hc
    · have h1 : L ≠ w := by omega
      simp [hc, h1, Nat.lt_succ_of_lt hc]
    · subst hc
      simp [Nat.lt_irrefl, Nat.lt_succ_self]
    · have h1 : ¬ w < L := by omega
      have h2 : L ≠ w := by omega
      have h3 : ¬ w < L + 1 := by omega
      simp [h1, h2, h3]

/-- Two terminating runs of the weight loop assign every name the same
weight: the weight equation plus strictly-decreasing dependencies pin the
assignment down uniquely. -/
theorem weights_unique {deps : String → List String} {asg1 asg2 : List (String × Nat)}
    (h21 : ∀ n, (alookup asg1 n).isSome → (alookup asg2 n).isSome)
    (form1 : ∀ n w, alookup asg1 n = some w → WFormula deps asg1 n w)
    (form2 : ∀ n w, alookup asg2 n = some w → WFormula deps asg2 n w)
    (dlt1 : ∀ n w, alookup asg1 n = some w → ∀ d ∈ deps n,
      ∃ wd, alookup asg1 d = some wd ∧ wd < w) :
    ∀ w n, alookup asg1 n = some w → alookup asg2 n = some w := by
  intro w
  induction w using Nat.strong_induction_on with
  | _ w ih =>
    intro n h1
    obtain ⟨w2, h2⟩ := Option.isSome_iff_exists.mp (h21 n (by simp [h1]))
    have hw : w2 = w := by
      rcases form1 n w h1 with ⟨hnil, hw0⟩ | ⟨hne, ws, hws, hmax⟩
      · rcases form2 n w2 h2 with ⟨_, hw20⟩ | ⟨hne2, _, _, _⟩
        · omega
        · exact absurd hnil hne2
      · rcases form2 n w2 h2 with ⟨hnil2, _⟩ | ⟨_, ws2, hws2, hmax2⟩
        · exact absurd hnil2 hne
        · have hsame : omapM (alookup asg2) (deps n) = some ws := by
            apply omapM_congr_of_some hws
            intro d hd wd hdw
            obtain ⟨wd', hdw', hlt⟩ := dlt1 n w h1 d hd
            have heq : wd = wd' := by
              rw [hdw] at hdw'
              simpa using hdw'
            rw [heq]
            exact ih wd' hlt d hdw'
          rw [hsame] at hws2
          have hwseq : ws = ws2 := by simpa using hws2
          rw [hmax, hmax2, hwseq]
    rw [h2, hw]

/-- C4: resolving the same input twice yields identical orders — the
sorter's output and its weights are invariant under permuting the input
dict, and names of equal weight appear in ascending lexicographic order. -/
theorem c4_determinism {P1 P2 r1 r2 : List (String × BasicCodeBlock)}
    (hperm : P1.Perm P2) (hnd : (P1.map Prod.fst).Nodup)
    (h1 : sort_precomputed preComp P1 = some r1)
    (h2 : sort_precomputed preComp P2 = some r2) :
    r1 = r2 ∧ (∀ n, weightOf preComp P1 n = weightOf preComp P2 n) ∧
    ∀ w, List.Sorted strLe ((r1.map Prod.fst).filter
        (fun n => decide (weightOf preComp P1 n = some w))) := by
  have hnd2 : (P2.map Prod.fst).Nodup := (hperm.map Prod.fst).nodup hnd
  obtain ⟨asg1, lv1, hd1, hmap1⟩ := sort_precomputed_inv h1
  obtain ⟨asg2, lv2, hd2, hmap2⟩ := sort_precomputed_inv h2
  obtain ⟨hkeys1, _⟩ := omapM_pairs hmap1
  have inv1 := sortDetail_inv hnd hd1
  have inv2 := sortDetail_inv hnd2 hd2
  have hdepseq : sortDeps preComp P2 = sortDeps preComp P1 := by
    funext n
    unfold sortDeps
    rw [alookup_perm hperm hnd n]
  rw [hdepseq] at inv2
  have hnames : (P1.map Prod.fst).Perm (P2.map Prod.fst) := hperm.map _
  have h21 : ∀ n, (alookup asg1 n).isSome → (alookup asg2 n).isSome := fun n hs =>
    (inv2.total n).mpr (hnames.mem_iff.mp ((inv1.total n).mp hs))
  have h12 : ∀ n, (alookup asg2 n).isSome → (alookup asg1 n).isSome := fun n hs =>
    (inv1.total n).mpr (hnames.mem_iff.mpr ((inv2.total n).mp hs))
  have hw12 := weights_unique h21 inv1.formula inv2.formula inv1.depsLt
  have hw21 := weights_unique h12 inv2.formula inv1.formula inv2.depsLt
  have hasg : ∀ n, alookup asg1 n = alookup asg2 n := by
    intro n
    cases hv : alookup asg1 n with
    | some w => exact (hw12 w n hv).symm
    | none =>
      cases hv2 : alookup asg2 n with
      | none => rfl
      | some w2 =>
        have := hw21 w2 n hv2
        rw [hv] at this
        exact absurd this (by simp)
  have hflat1 : (lv1.flatMap Prod.snd).Nodup :=
    inv1.flat.symm.nodup (inv1.asgKeysNodup hnd).2.1
  have hflat2 : (lv2.flatMap Prod.snd).Nodup :=
    inv2.flat.symm.nodup (inv2.asgKeysNodup hnd2).2.1
  have hbnd : ∀ (lv : List (Nat × List String)), (lv.flatMap Prod.snd).Nodup →
      ∀ w, ((alookup lv w).getD []).Nodup := by
    intro lv hf w
    cases hk : alookup lv w with
    | none => simp
    | some ns =>
      have := nodup_snd_of_flat hf (w, ns) (alookup_eq_some_mem hk)
      simpa using this
  have hblocks : ∀ w, sortedLevel ((alookup lv1 w).getD []) =
      sortedLevel ((alookup lv2 w).getD []) := by
    intro w
    have hb1 := hbnd lv1 hflat1 w
    have hb2 := hbnd lv2 hflat2 w
    have hmemiff : ∀ x, x ∈ (alookup lv1 w).getD [] ↔ x ∈ (alookup lv2 w).getD [] := by
      intro x
      rw [← List.mem_insertionSort strLe (l := (alookup lv1 w).getD []),
        ← List.mem_insertionSort strLe (l := (alookup lv2 w).getD [])]
      rw [show (List.insertionSort strLe ((alookup lv1 w).getD [])) =
            sortedLevel ((alookup lv1 w).getD []) from rfl,
        show (List.insertionSort strLe ((alookup lv2 w).getD [])) =
            sortedLevel ((alookup lv2 w).getD []) from rfl]
      rw [inv1.mem_block_iff, inv2.mem_block_iff, hasg]
    have hp : ((alookup lv1 w).getD []).Perm ((alookup lv2 w).getD []) :=
      (List.perm_ext_iff_of_nodup hb1 hb2).mpr hmemiff
    exact List.eq_of_perm_of_sorted
      ((List.perm_insertionSort strLe _).trans
        (hp.trans (List.perm_insertionSort strLe _).symm))
      (List.sorted_insertionSort strLe _) (List.sorted_insertionSort strLe _)
  have hkeyiff : ∀ (lv : List (Nat × List String)) (asg : List (String × Nat)),
      SortInv (sortDeps preComp P1) (P1.map Prod.fst) [] asg lv ∨
      SortInv (sortDeps preComp P1) (P2.map Prod.fst) [] asg lv →
      ∀ w, w ∈ lv.map Prod.fst ↔ ∃ x, alookup asg x = some w := by
    intro lv asg hinv w
    have keysNodup : (lv.map Prod.fst).Nodup := by
      rcases hinv with h | h
      · exact h.keysNodup
      · exact h.keysNodup
    have inLv : ∀ w' ns, alookup lv w' = some ns → ∀ n ∈ ns, alookup asg n = some w' := by
      rcases hinv with h | h
      · exact h.inLv
      · exact h.inLv
    have blocksNE : ∀ p ∈ lv, p.2 ≠ [] := by
      rcases hinv with h | h
      · exact h.blocksNE
      · exact h.blocksNE
    constructor
    · intro hw
      obtain ⟨q, hq, hq1⟩ := List.mem_map.mp hw
      have hlk : alookup lv q.1 = some q.2 :=
        mem_alookup_of_nodup keysNodup (by simpa using hq)
      cases hns : q.2 with
      | nil => exact absurd hns (blocksNE q hq)
      | cons x xs =>
        have hx : x ∈ q.2 := hns ▸ List.mem_cons_self ..
        have := inLv q.1 q.2 hlk x hx
        exact ⟨x, hq1 ▸ this⟩
    · intro ⟨x, hx⟩
      rcases hinv with h | h
      · obtain ⟨q, hq, hq1⟩ := h.weight_key_mem hx
        exact List.mem_map.mpr ⟨q, hq, hq1⟩
      · obtain ⟨q, hq, hq1⟩ := h.weight_key_mem hx
        exact List.mem_map.mpr ⟨q, hq, hq1⟩
  have hkeyset : ∀ w, w ∈ lv1.map Prod.fst ↔ w ∈ lv2.map Prod.fst := by
    intro w
    rw [hkeyiff lv1 asg1 (Or.inl inv1) w, hkeyiff lv2 asg2 (Or.inr inv2) w]
    constructor
    · rintro ⟨x, hx⟩; exact ⟨x, (hasg x) ▸ hx⟩
    · rintro ⟨x, hx⟩; exact ⟨x, (hasg x).symm ▸ hx⟩
  have hlen : lv1.length = lv2.length := by
    have hpk : (lv1.map Prod.fst).Perm (lv2.map Prod.fst) :=
      (List.perm_ext_iff_of_nodup inv1.keysNodup inv2.keysNodup).mpr hkeyset
    have := hpk.length_eq
    simpa using this
  have hord : orderedOf lv1 = orderedOf lv2 := by
    unfold orderedOf
    rw [hlen]
    exact flatMap_congr (fun i _ => hblocks i)
  have hr : r1 = r2 := by
    rw [hord] at hmap1
    rw [hmap1] at hmap2
    simpa using hmap2
  have hwof1 : ∀ n, weightOf preComp P1 n = alookup asg1 n := by
    intro n
    unfold weightOf
    simp only [hd1]
  have hwof : ∀ n, weightOf preComp P1 n = weightOf preComp P2 n := by
    intro n
    unfold weightOf
    simp only [hd1, hd2]
    exact hasg n
  refine ⟨hr, hwof, ?_⟩
  intro w
  rw [hkeys1]
  unfold orderedOf
  rw [List.filter_flatMap]
  have hfil : ∀ i ∈ List.range lv1.length,
      List.filter (fun n => decide (weightOf preComp P1 n = some w))
        (sortedLevel ((alookup lv1 i).getD [])) =
      if i = w then sortedLevel ((alookup lv1 i).getD []) else [] := by
    intro i _
    by_cases hiw : i = w
    · rw [if_pos hiw]
      apply List.filter_eq_self.mpr
      intro n hn
      have hmem := (inv1.mem_block_iff n i).mp hn
      simp [hwof1 n, hmem, hiw]
    · rw [if_neg hiw]
      apply List.filter_eq_nil_iff.mpr
      intro n hn
      have hmem := (inv1.mem_block_iff n i).mp hn
      simp [hwof1 n, hmem, hiw]
  rw [flatMap_congr hfil, flatMap_range_if]
  by_cases hwL : w < lv1.length
  · rw [if_pos hwL]
    exact List.sorted_insertionSort strLe _
  · rw [if_neg hwL]
    exact List.sorted_nil

/-- Witness for C4: the closed set `{RIJ, XIJ, R2IJ}` presented in two
iteration orders resolves to the same order. -/
theorem c4_determinism_witness :
    sort_precomputed preComp closedS = some resolvedRIJ ∧
    sort_precomputed preComp closedSRev = some resolvedRIJ ∧
    (resolvedRIJ = resolvedRIJ ∧
      (∀ n, weightOf preComp closedS n = weightOf preComp closedSRev n) ∧
      ∀ w, List.Sorted strLe ((resolvedRIJ.map Prod.fst).filter
          (fun n => decide (weightOf preComp closedS n = some w)))) :=
  ⟨by decide, by decide,
    c4_determinism (List.reverse_perm closedS).symm (by decide) (by decide) (by decide)⟩

/-- C5: precomputed fragments are prepended — each stripped, with a blank
separator when any were emitted — only to the per-pair (`loop`) phase
code; the `initialize` and `post_loop` phase code consist of the dispatch
stubs alone, with no precomputed fragments, for any resolved set. -/
theorem c5_phase_scoping (resolved : List (String × BasicCodeBlock))
    (eqs : List Equation) :
    getCode resolved eqs Phase.init = String.intercalate "\n" (stubLines eqs Phase.init) ∧
    getCode resolved eqs Phase.post_loop =
      String.intercalate "\n" (stubLines eqs Phase.post_loop) ∧
    getCode resolved eqs Phase.loop = String.intercalate "\n"
      ((if resolved = [] then []
        else resolved.map (fun pc => pc.2.code.trim) ++ [""]) ++
          stubLines eqs Phase.loop) := by
  refine ⟨?_, ?_, ?_⟩
  · unfold getCode preLines
    simp
  · unfold getCode preLines
    simp
  · unfold getCode preLines
    by_cases h : resolved = []
    · subst h
      simp
    · have hlen : 0 < resolved.length := List.length_pos.mpr h
      simp [h, hlen]

/-- C10: `Group.__init__` runs `update`, which runs `_setup_precomputed`,
which reads `equation.loop` for every equation (line 375); an equation
whose class defines no `loop` makes the whole computation raise
(`AttributeError`, modelled as `none`) — even if it defines `initialize`
or `post_loop`. -/
theorem c10_loop_required (lib : List (String × BasicCodeBlock))
    (eqs : List Equation) (h : ∃ e ∈ eqs, e.loopArgs = none) :
    setupPrecomputed lib eqs = none := by
  obtain ⟨e, he, hnone⟩ := h
  unfold setupPrecomputed allLoopArgs
  rw [omapM_none_of_mem he hnone]

/-- Witness for C10: a group containing an equation with only
`initialize` and `post_loop` behaviours fails to resolve. -/
theorem c10_loop_required_witness :
    (∃ e ∈ [eqRho, eqNoLoop], e.loopArgs = none) ∧
      setupPrecomputed preComp [eqRho, eqNoLoop] = none :=
  ⟨⟨eqNoLoop, by decide, rfl⟩,
    c10_loop_required preComp [eqRho, eqNoLoop] ⟨eqNoLoop, by decide, rfl⟩⟩

/-- C9, counterexample: resolving `XIJ` stores the library's default
vector into the group context *by reference* (line 404 copies the
reference `cb.context[p]`, not the list).  Two groups built from the same
equations hold the same heap address; an in-place write through the first
group's context changes what the second group's context reads, so the
other group's value does not stay unchanged. -/
theorem c9_counterexample :
    setupPrecomputed preComp [eqXIJ] = some [("XIJ", xijBlock)] ∧
    readVec heap0 (groupContext [("XIJ", xijBlock)]) "XIJ" = some [0, 0, 0] ∧
    readVec (ctxWriteIdx heap0 (groupContext [("XIJ", xijBlock)]) "XIJ" 0 1)
        (groupContext [("XIJ", xijBlock)]) "XIJ" = some [1, 0, 0] ∧
    readVec (ctxWriteIdx heap0 (groupContext [("XIJ", xijBlock)]) "XIJ" 0 1)
        (groupContext [("XIJ", xijBlock)]) "XIJ" ≠
      readVec heap0 (groupContext [("XIJ", xijBlock)]) "XIJ" := by
  refine ⟨by decide, by decide, by decide, by decide⟩

/-- C9, amended: after resolution a group's context binds each resolved
symbol to the library block's own default value — the very same reference
for vector defaults — so two groups that resolve the same symbol hold the
identical value/reference, not independent copies. -/
theorem c9_amended (eqs1 eqs2 : List Equation)
    (r1 r2 : List (String × BasicCodeBlock))
    (h1 : setupPrecomputed preComp eqs1 = some r1)
    (h2 : setupPrecomputed preComp eqs2 = some r2) :
    ∀ p v1 v2, (p, v1) ∈ groupContext r1 → (p, v2) ∈ groupContext r2 →
      (∃ cb, alookup preComp p = some cb ∧ v1 = cb.ctxDefault ∧
        v2 = cb.ctxDefault) ∧ v1 = v2 := by
  obtain ⟨_, _, _, _, _, _, hs1⟩ := setupPrecomputed_inv h1
  obtain ⟨_, _, _, hmap1⟩ := sort_precomputed_inv hs1
  obtain ⟨_, hvals1⟩ := omapM_pairs hmap1
  obtain ⟨_, _, _, _, _, _, hs2⟩ := setupPrecomputed_inv h2
  obtain ⟨_, _, _, hmap2⟩ := sort_precomputed_inv hs2
  obtain ⟨_, hvals2⟩ := omapM_pairs hmap2
  intro p v1 v2 hm1 hm2
  obtain ⟨pc1, hpc1, hpe1⟩ := List.mem_map.mp hm1
  obtain ⟨pc2, hpc2, hpe2⟩ := List.mem_map.mp hm2
  have hp1 : pc1.1 = p := congrArg Prod.fst hpe1
  have hv1 : v1 = pc1.2.ctxDefault := (congrArg Prod.snd hpe1).symm
  have hp2 : pc2.1 = p := congrArg Prod.fst hpe2
  have hv2 : v2 = pc2.2.ctxDefault := (congrArg Prod.snd hpe2).symm
  have hl1 := hvals1 pc1 hpc1
  have hl2 := hvals2 pc2 hpc2
  rw [hp1] at hl1
  rw [hp2] at hl2
  have hcb : pc1.2 = pc2.2 := by
    rw [hl1] at hl2
    simpa using hl2
  refine ⟨⟨pc1.2, hl1, hv1, by rw [hv2, hcb]⟩, ?_⟩
  rw [hv1, hv2, hcb]

/-- Witness for the amended C9 on two groups both resolving `XIJ`. -/
theorem c9_amended_witness :
    (∃ cb, alookup preComp "XIJ" = some cb ∧ PyVal.ref 0 = cb.ctxDefault ∧
      PyVal.ref 0 = cb.ctxDefault) ∧ PyVal.ref 0 = PyVal.ref 0 :=
  c9_amended [eqXIJ] [eqXIJ] [("XIJ", xijBlock)] [("XIJ", xijBlock)]
    (by decide) (by decide) "XIJ" (PyVal.ref 0) (PyVal.ref 0)
    (by decide) (by decide)

/-- C8: an equation whose per-pair behaviour references precisely `RIJ`
among library names resolves to the order `[XIJ, R2IJ, RIJ]`, with
weights 0, 1, 2 — `RIJ`'s block references `R2IJ`, whose block references
`XIJ`. -/
theorem c8_rij_example :
    (setupPrecomputed preComp [eqRIJ]).map (fun r => r.map Prod.fst) =
      some ["XIJ", "R2IJ", "RIJ"] ∧
    setupPrecomputed preComp [eqRIJ] = some resolvedRIJ ∧
    "R2IJ" ∈ rijBlock.symbols ∧ "XIJ" ∈ r2ijBlock.symbols ∧
    weightOf preComp resolvedRIJ "XIJ" = some 0 ∧
    weightOf preComp resolvedRIJ "R2IJ" = some 1 ∧
    weightOf preComp resolvedRIJ "RIJ" = some 2 := by
  refine ⟨by decide, by decide, by decide, by decide, by decide, by decide, by decide⟩

/-! ### Decimal counter strings and the naming loop (claim C6 machinery) -/

theorem parseNum_append_digit (l : List Char) (c : Char) :
    parseNum (l ++ [c]) = parseNum l * 10 + (c.toNat - 48) := by
  unfold parseNum
  rw [List.foldl_append]
  rfl

theorem charOfNat_digit_toNat {d : Nat} (h : d < 10) :
    (Char.ofNat (48 + d)).toNat = 48 + d := by
  interval_cases d <;> rfl

theorem decDigits_parse : ∀ (fuel n : Nat), n ≤ fuel →
    parseNum (decDigits fuel n) = n := by
  intro fuel
  induction fuel with
  | zero =>
    intro n h
    have hz : n = 0 := by omega
    subst hz
    rfl
  | succ fuel ih =>
    intro n h
    by_cases hz : n = 0
    · subst hz
      simp [decDigits, parseNum]
    · unfold decDigits
      rw [if_neg hz, parseNum_append_digit,
        charOfNat_digit_toNat (Nat.mod_lt _ (by norm_num)),
        ih (n / 10) (by
          have := Nat.div_lt_self (Nat.pos_of_ne_zero hz) (by norm_num : 1 < 10)
          omega)]
      omega

theorem natStr_inj {m n : Nat} (h : natStr m = natStr n) : m = n := by
  unfold natStr at h
  by_cases hm : m = 0 <;> by_cases hn : n = 0
  · omega
  · rw [if_pos hm, if_neg hn] at h
    have hdata : ("0" : String).data = decDigits (n + 1) n := congrArg String.data h
    have hp := decDigits_parse (n + 1) n (by omega)
    rw [← hdata] at hp
    have h0 : parseNum ("0" : String).data = 0 := rfl
    omega
  · rw [if_neg hm, if_pos hn] at h
    have hdata : decDigits (m + 1) m = ("0" : String).data := congrArg String.data h
    have hp := decDigits_parse (m + 1) m (by omega)
    rw [hdata] at hp
    have h0 : parseNum ("0" : String).data = 0 := rfl
    omega
  · rw [if_neg hm, if_neg hn] at h
    have hdata : decDigits (m + 1) m = decDigits (n + 1) n := congrArg String.data h
    have h1 := decDigits_parse (m + 1) m (by omega)
    have h2 := decDigits_parse (n + 1) n (by omega)
    rw [hdata] at h1
    omega

theorem string_append_left_cancel {s t1 t2 : String} (h : s ++ t1 = s ++ t2) :
    t1 = t2 := by
  apply String.ext
  have hd := congrArg String.data h
  rw [String.data_append, String.data_append] at hd
  exact List.append_cancel_left hd

/-- The name the assignment loop gives position `i`: the camel-case
conversion of the instance's display name plus the per-class count of
earlier same-class instances (offset by the incoming counters). -/
theorem assignAux_get (eqs : List Equation) :
    ∀ (counters : List (String × Nat)) (i : Nat) (ei : Equation),
    eqs[i]? = some ei →
    ((assignVarNamesAux eqs counters).map (fun e => e.var_name))[i]? =
      some (camel_to_underscore ei.name ++
        natStr (alookupD counters ei.cls 0 + countClsBefore eqs i ei.cls)) := by
  induction eqs with
  | nil => intro counters i ei h; simp at h
  | cons e rest ih =>
    intro counters i ei h
    cases i with
    | zero =>
      simp only [List.getElem?_cons_zero, Option.some.injEq] at h
      subst h
      simp [assignVarNamesAux, countClsBefore]
    | succ i =>
      simp only [List.getElem?_cons_succ] at h
      simp only [assignVarNamesAux, List.map_cons, List.getElem?_cons_succ]
      rw [ih ((e.cls, alookupD counters e.cls 0 + 1) :: counters) i ei h]
      have harith : alookupD ((e.cls, alookupD counters e.cls 0 + 1) :: counters) ei.cls 0 +
          countClsBefore rest i ei.cls =
          alookupD counters ei.cls 0 + countClsBefore (e :: rest) (i + 1) ei.cls := by
        by_cases hc : ei.cls = e.cls
        · have h1 : alookupD ((e.cls, alookupD counters e.cls 0 + 1) :: counters) ei.cls 0 =
              alookupD counters e.cls 0 + 1 := by
            simp [alookupD, alookup, hc]
          have h2 : countClsBefore (e :: rest) (i + 1) ei.cls =
              countClsBefore rest i ei.cls + 1 := by
            unfold countClsBefore
            rw [List.take_succ_cons, List.filter_cons]
            have : (e.cls == ei.cls) = true := by simp [hc]
            simp [this]
          rw [h1, h2, hc]
          omega
        · have h1 : alookupD ((e.cls, alookupD counters e.cls 0 + 1) :: counters) ei.cls 0 =
              alookupD counters ei.cls 0 := by
            simp [alookupD, alookup, hc]
          have h2 : countClsBefore (e :: rest) (i + 1) ei.cls =
              countClsBefore rest i ei.cls := by
            unfold countClsBefore
            rw [List.take_succ_cons, List.filter_cons]
            have : (e.cls == ei.cls) = false := by
              simp
              exact fun heq => hc heq.symm
            simp [this]
          rw [h1, h2]
      rw [harith]

theorem assignVarNames_get {eqs : List Equation} {i : Nat} {ei : Equation}
    (h : eqs[i]? = some ei) :
    ((assignVarNames eqs).map (fun e => e.var_name))[i]? =
      some (camel_to_underscore ei.name ++ natStr (countClsBefore eqs i ei.cls)) := by
  have := assignAux_get eqs [] i ei h
  simpa [alookupD, alookup] using this

theorem countClsBefore_lt {eqs : List Equation} :
    ∀ (i j : Nat) (ei : Equation), i < j → eqs[i]? = some ei →
    countClsBefore eqs i ei.cls < countClsBefore eqs j ei.cls := by
  induction eqs with
  | nil => intro i j ei hij h; simp at h
  | cons e rest ih =>
    intro i j ei hij h
    cases i with
    | zero =>
      simp only [List.getElem?_cons_zero, Option.some.injEq] at h
      subst h
      cases j with
      | zero => omega
      | succ j =>
        unfold countClsBefore
        rw [List.take_succ_cons, List.filter_cons]
        simp
    | succ i =>
      cases j with
      | zero => omega
      | succ j =>
        simp only [List.getElem?_cons_succ] at h
        have hlt := ih i j ei (by omega) h
        unfold countClsBefore at hlt ⊢
        rw [List.take_succ_cons, List.take_succ_cons, List.filter_cons,
          List.filter_cons]
        cases hpc : (e.cls == ei.cls) <;> simp [hpc] <;> omega

/-- C6, counterexample: eleven instances of one class `C` where the first
carries display name `X1` and the rest the name `X`.  `var_name` combines
`camel_to_underscore(equation.name)` (the display name, line 498) with a
per-class counter, so the first instance gets `x1` + `0` = `x10` and the
eleventh gets `x` + `10` = `x10`: the assigned names are not distinct,
and not every name is derived from the class's name. -/
theorem c6_counterexample :
    (∀ e ∈ elevenC, e.cls = "C") ∧
    ((assignVarNames elevenC).map (fun e => e.var_name))[0]? = some "x10" ∧
    ((assignVarNames elevenC).map (fun e => e.var_name))[10]? = some "x10" ∧
    ¬ ((assignVarNames elevenC).map (fun e => e.var_name)).Nodup := by
  refine ⟨by decide, by decide, by decide, by decide⟩

/-- C6, amended: when every instance keeps its default display name (the
class name — the `name=None` case of `Equation.__init__`), the `i`-th
instance's variable name is the camel-case conversion of the class name
suffixed by the zero-based count of earlier same-class instances, and any
two same-class instances receive distinct variable names. -/
theorem c6_amended (eqs : List Equation) (hdef : ∀ e ∈ eqs, e.name = e.cls)
    (i j : Nat) (ei ej : Equation) (hi : eqs[i]? = some ei)
    (hj : eqs[j]? = some ej) (hcls : ei.cls = ej.cls) (hij : i < j) :
    ((assignVarNames eqs).map (fun e => e.var_name))[i]? =
      some (camel_to_underscore ei.cls ++ natStr (countClsBefore eqs i ei.cls)) ∧
    ((assignVarNames eqs).map (fun e => e.var_name))[j]? =
      some (camel_to_underscore ej.cls ++ natStr (countClsBefore eqs j ej.cls)) ∧
    ((assignVarNames eqs).map (fun e => e.var_name))[i]? ≠
      ((assignVarNames eqs).map (fun e => e.var_name))[j]? := by
  have hmi : ei ∈ eqs := by
    obtain ⟨hlen, hget⟩ := List.getElem?_eq_some_iff.mp hi
    exact hget ▸ List.getElem_mem ..
  have hmj : ej ∈ eqs := by
    obtain ⟨hlen, hget⟩ := List.getElem?_eq_some_iff.mp hj
    exact hget ▸ List.getElem_mem ..
  have hni : ei.name = ei.cls := hdef ei hmi
  have hnj : ej.name = ej.cls := hdef ej hmj
  have hgi := assignVarNames_get hi
  have hgj := assignVarNames_get hj
  rw [hni] at hgi
  rw [hnj] at hgj
  refine ⟨hgi, hgj, ?_⟩
  rw [hgi, hgj]
  intro hcontra
  simp only [Option.some.injEq] at hcontra
  rw [← hcls] at hcontra
  have hnat := natStr_inj (string_append_left_cancel hcontra)
  have := countClsBefore_lt i j ei hij hi
  rw [hcls] at this
  rw [← hcls] at this
  omega

/-- Witness for the amended C6: two default-named `FooEquation` instances
get `foo_equation0` and `foo_equation1`, which differ. -/
theorem c6_amended_witness :
    ((assignVarNames twoFoo).map (fun e => e.var_name))[0]? =
      some (camel_to_underscore fooEq.cls ++ natStr (countClsBefore twoFoo 0 fooEq.cls)) ∧
    ((assignVarNames twoFoo).map (fun e => e.var_name))[1]? =
      some (camel_to_underscore fooEq.cls ++ natStr (countClsBefore twoFoo 1 fooEq.cls)) ∧
    ((assignVarNames twoFoo).map (fun e => e.var_name))[0]? ≠
      ((assignVarNames twoFoo).map (fun e => e.var_name))[1]? :=
  c6_amended twoFoo (by decide) 0 1 fooEq fooEq (by decide) (by decide)
    (by decide) (by decide)

/-! ### Unknown per-pair parameter names (claim C7 machinery) -/

/-- Appending one extra `loop` parameter to an equation either leaves
argument collection failing on both variants or produces argument lists
that agree on every name other than the added one. -/
theorem allLoopArgs_insert (pre post : List Equation) (e : Equation)
    (args : List String) (x : String) (he : e.loopArgs = some args) :
    (allLoopArgs (pre ++ { e with loopArgs := some (args ++ [x]) } :: post) = none ∧
      allLoopArgs (pre ++ e :: post) = none) ∨
    (∃ A1 A0, allLoopArgs (pre ++ { e with loopArgs := some (args ++ [x]) } :: post) = some A1 ∧
      allLoopArgs (pre ++ e :: post) = some A0 ∧
      ∀ s, s ≠ x → (s ∈ A1 ↔ s ∈ A0)) := by
  unfold allLoopArgs
  rw [omapM_append, omapM_append]
  cases hpre : omapM (fun e => e.loopArgs) pre with
  | none =>
    left
    constructor <;> rfl
  | some B1 =>
    have hcons1 : omapM (fun e => e.loopArgs)
        ({ e with loopArgs := some (args ++ [x]) } :: post) =
        match omapM (fun e => e.loopArgs) post with
        | none => none
        | some B2 => some ((args ++ [x]) :: B2) := by
      simp only [omapM]
      cases omapM (fun e => e.loopArgs) post <;> rfl
    have hcons0 : omapM (fun e => e.loopArgs) (e :: post) =
        match omapM (fun e => e.loopArgs) post with
        | none => none
        | some B2 => some (args :: B2) := by
      simp only [omapM, he]
      cases omapM (fun e => e.loopArgs) post <;> rfl
    cases hpost : omapM (fun e => e.loopArgs) post with
    | none =>
      left
      rw [hpost] at hcons1 hcons0
      rw [hcons1, hcons0]
      constructor <;> rfl
    | some B2 =>
      right
      rw [hpost] at hcons1 hcons0
      rw [hcons1, hcons0]
      refine ⟨_, _, rfl, rfl, ?_⟩
      intro s hsx
      have hx' : s ∉ ([x] : List String) := by simpa using hsx
      simp only [List.mem_filter, List.flatMap_cons, List.flatMap_append, id,
        List.mem_append]
      constructor
      · rintro ⟨hmem, hself⟩
        exact ⟨by tauto, hself⟩
      · rintro ⟨hmem, hself⟩
        exact ⟨by tauto, hself⟩

/-- C7: a `loop` parameter name that is not a key of the precomputed
library is silently excluded from the closure: group resolution with the
extra name behaves exactly as without it — the same resolved set (and the
same success/failure), with no error of its own. -/
theorem c7_unknown_symbol_ignored (pre post : List Equation) (e : Equation)
    (args : List String) (x : String) (he : e.loopArgs = some args)
    (hx : alookup preComp x = none) :
    setupPrecomputed preComp (pre ++ { e with loopArgs := some (args ++ [x]) } :: post) =
      setupPrecomputed preComp (pre ++ e :: post) := by
  rcases allLoopArgs_insert pre post e args x he with ⟨h1, h0⟩ | ⟨A1, A0, h1, h0, hiff⟩
  · unfold setupPrecomputed
    rw [h1, h0]
  · unfold setupPrecomputed
    rw [h1, h0]
    have hinit : (libKeys preComp).filter (fun s => decide (s ∈ A1)) =
        (libKeys preComp).filter (fun s => decide (s ∈ A0)) := by
      apply List.filter_congr
      intro s hs
      have hsx : s ≠ x := by
        intro hsx
        subst hsx
        exact absurd ((alookup_eq_none_iff preComp s).mp hx)
          (fun hc => hc hs)
      simp only [decide_eq_decide]
      exact hiff s hsx
    simp only [hinit]

/-- Witness for C7: adding the unknown name `FOO` to an equation's `loop`
parameters leaves the resolution of `{RHOIJ}` unchanged. -/
theorem c7_unknown_symbol_ignored_witness :
    eqRho.loopArgs = some eqRhoArgs ∧ alookup preComp "FOO" = none ∧
    setupPrecomputed preComp [{ eqRho with loopArgs := some (eqRhoArgs ++ ["FOO"]) }] =
      setupPrecomputed preComp [eqRho] ∧
    setupPrecomputed preComp [eqRho] = some [("RHOIJ", rhoijBlock)] :=
  ⟨rfl, by decide,
    c7_unknown_symbol_ignored [] [] eqRho eqRhoArgs "FOO" rfl (by decide),
    by decide⟩

end PysphEq
